import Mathlib

/-!
Verification development for the ai-gateway protocol-translation engine.

This file gives a shallow embedding, in Lean 4, of the parts of the Go source
that the specification claims talk about:

* the JSON Schema sanitizer (`internal/extproc/translator/jsonschema_helper.go`
  and the sibling `jsonSchema*` functions of the Gemini translator),
* the streaming AWS EventStream decoders of the chat-completion translators,
* the tokenize request union and the tokenize translators' request paths,
* the tokenize endpoint body classification,
* the token-usage accountant.

Go `map[string]any` values decoded from JSON are modelled by the mutual

inductive `JValue`/`JArr`/`JObj`; a `JObj` is an association list with
unique keys.  Iteration order of a Go map is unspecified, so the embedding
fixes the entry order as one deterministic refinement of it (the claims
proved below are either order-independent or evaluated on concrete inputs
whose trace does not depend on the order).  Go `error` returns are modelled
with `Except`; a Go runtime panic (failed type assertion, index out of
range) is modelled as the distinguished `GoErr.crash` outcome.  Deep copies
are the identity in a pure embedding.  Recursions that Go terminates only
through its visited-reference set carry an explicit fuel counter that is
decremented on every call; the pipeline entry points supply fuel that is
large enough that a fuel exhaustion (a distinguished `crash`) never occurs
on a run Go would complete, so every non-fuel result equals Go's.
-/

mutual

/-- A JSON value as decoded by Go's `encoding/json` into `any`:
`nil`, `bool`, numbers, `string`, `[]any` and `map[string]any`. -/
inductive JValue where
  | null
  | boolean (b : Bool)
  | num (n : Int)
  | str (s : String)
  | arr (elems : JArr)
  | obj (fields : JObj)
deriving DecidableEq, Repr

/-- A JSON array (`[]any`). -/
inductive JArr where
  | nil
  | cons (hd : JValue) (tl : JArr)
deriving DecidableEq, Repr

/-- A JSON object (`map[string]any`), as an ordered association list. -/
inductive JObj where
  | nil
  | cons (key : String) (val : JValue) (tl : JObj)
deriving DecidableEq, Repr

end

instance {ε α : Type} [DecidableEq ε] [DecidableEq α] : DecidableEq (Except ε α) :=
  fun a b =>
  match a, b with
  | .ok x, .ok y =>
    if h : x = y then isTrue (by rw [h]) else isFalse (by simp [h])
  | .error x, .error y =>
    if h : x = y then isTrue (by rw [h]) else isFalse (by simp [h])
  | .ok _, .error _ => isFalse (by simp)
  | .error _, .ok _ => isFalse (by simp)

/-- Build a `JObj` from a list of key/value pairs (concrete-input helper). -/
def JObj.ofList : List (String × JValue) → JObj
  | [] => .nil
  | (k, v) :: rest => .cons k v (JObj.ofList rest)

/-- Build a `JArr` from a list of values (concrete-input helper). -/
def JArr.ofList : List JValue → JArr
  | [] => .nil
  | v :: rest => .cons v (JArr.ofList rest)

/-- The keys of a JSON object, in iteration order. -/
def JObj.keys : JObj → List String
  | .nil => []
  | .cons k _ rest => k :: JObj.keys rest

/-- Outcome of a Go function: a returned `error` value, or a runtime panic
(`crash`).  Fuel exhaustion of the embedding is `crash "out of fuel"` and
never occurs on the runs studied here. -/
inductive GoErr where
  | err (msg : String)
  | crash (msg : String)
deriving DecidableEq, Repr

/-- Result of a fallible Go function. -/
abbrev GoResult (α : Type) := Except GoErr α

/-- The fuel-exhaustion outcome of the embedding. -/
def fuelCrash {α : Type} : GoResult α := .error (.crash "out of fuel")

mutual

/-- Number of nodes of a JSON value (used to compute fuel bounds). -/
def jsize : JValue → Nat
  | .null => 1
  | .boolean _ => 1
  | .num _ => 1
  | .str _ => 1
  | .arr l => 1 + jsizeArr l
  | .obj f => 1 + jsizeObj f

/-- Node count of a JSON array. -/
def jsizeArr : JArr → Nat
  | .nil => 1
  | .cons x xs => 1 + jsize x + jsizeArr xs

/-- Node count of a JSON object field list. -/
def jsizeObj : JObj → Nat
  | .nil => 1
  | .cons _ v rest => 1 + jsize v + jsizeObj rest

end

/-- Association-list lookup, the counterpart of a Go map read `m[k]`. -/
def lookupKey : JObj → String → Option JValue
  | .nil, _ => none
  | .cons k' v' rest, k => if k' = k then some v' else lookupKey rest k

/-- Go map assignment `m[k] = v`: overwrite the existing entry (keeping its
position in the deterministic refinement) or append a new one. -/
def insertGo : JObj → String → JValue → JObj
  | .nil, k, v => .cons k v .nil
  | .cons k' v' rest, k, v =>
    if k' = k then .cons k v rest else .cons k' v' (insertGo rest k v)

mutual

/-- Model of Go `fmt.Sprintf("%v", x)` on a JSON-decoded `any` value.
Scalars print as in Go (`nil` as `<nil>`, bools as `true`/`false`, strings
verbatim, numbers in their shortest decimal form — exponent notation for
very large floats is out of scope, the claims only use small numbers);
slices print space-separated in brackets and maps print sorted by key
(Go's `fmt` sorts map keys before printing). -/
def goSprintfV : JValue → String
  | .null => "<nil>"
  | .boolean b => if b then "true" else "false"
  | .num n => toString n
  | .str s => s
  | .arr l => "[" ++ String.intercalate " " (goSprintfArr l) ++ "]"
  | .obj fields =>
    "map[" ++ String.intercalate " "
      (((goSprintfObj fields).mergeSort (fun a b => a.1 ≤ b.1)).map
        (fun kv => kv.1 ++ ":" ++ kv.2)) ++ "]"

/-- `%v`-renders each element of a slice. -/
def goSprintfArr : JArr → List String
  | .nil => []
  | .cons x xs => goSprintfV x :: goSprintfArr xs

/-- `%v`-renders each entry of a map (sorted by the caller). -/
def goSprintfObj : JObj → List (String × String)
  | .nil => []
  | .cons k v rest => (k, goSprintfV v) :: goSprintfObj rest

end

/-- Character-level splitter: the counterpart of Go
`strings.Split(s, "/")` (a kernel-reducible replacement for `String.splitOn`,
which is defined by well-founded recursion and does not reduce). -/
def splitChars (sep : Char) : List Char → List (List Char)
  | [] => [[]]
  | c :: rest =>
    if c = sep then [] :: splitChars sep rest
    else
      match splitChars sep rest with
      | g :: gs => (c :: g) :: gs
      | [] => [[c]]

/-- Go `strings.Split(s, "/")`. -/
def splitOnSlash (s : String) : List String :=
  (splitChars '/' s.data).map String.mk

/-- The path walk of `retrieveRef`: for each component, read the key and
type-assert the value to `map[string]any`.  A present but non-map value hits
the unchecked Go type assertion `val.(map[string]any)` and panics; an absent
key yields the `not found` error. -/
def refWalk (path : String) : List String → JObj → GoResult JObj
  | [], out => .ok out
  | c :: rest, out =>
    match lookupKey out c with
    | some (JValue.obj m) => refWalk path rest m
    | some _ => .error (.crash "interface conversion: interface is not map[string]any")
    | none =>
      .error (.err ("invalid JSON schema: Reference '" ++ path ++
        "' not found: intermediate component is not a map"))

/-- `retrieveRef` of `jsonschema_helper.go` (identical to the Gemini
translator's `jsonSchemaRetrieveRef` up to the deep-copy mechanism, which is
the identity in a pure embedding): split the path on `/`, require the `#`
fragment prefix, then walk the document. -/
def retrieveRef (path : String) (schema : JObj) : GoResult JValue :=
  match splitOnSlash path with
  | [] => .error (.err "invalid JSON schema: ref paths are expected to be URI fragments, meaning they should start with #.")
  | c0 :: rest =>
    if c0 ≠ "#" then
      .error (.err "invalid JSON schema: ref paths are expected to be URI fragments, meaning they should start with #.")
    else
      (refWalk path rest schema).map JValue.obj

/-- The second path component of a `$ref` path (`components[1]`), recorded
as a skip key when present. -/
def refTopLevelKey (refPath : String) : List String :=
  match splitOnSlash refPath with
  | _ :: c1 :: _ => [c1]
  | _ => []

mutual

/-- `dereferenceRefsHelper` of `jsonschema_helper.go` (the extproc version):
recursively dereference `$ref` nodes.  A `$ref` whose path is already in the
visited set is silently skipped (`continue`), and the visited entry is
removed again on unwind (in this pure embedding the recursive call simply
gets the extended set, so siblings see the original one, which is the same
discipline). -/
def derefHelperExt : Nat → JValue → JObj → List String → List String → GoResult JValue
  | 0, _, _, _, _ => fuelCrash
  | fuel + 1, obj, fullSchema, skipKeys, processed =>
    match obj with
    | .obj dict => derefFieldsExt fuel dict .nil fullSchema skipKeys processed
    | .arr l => do
      let l' ← derefArrExt fuel l fullSchema skipKeys processed
      return .arr l'
    | v => .ok v

/-- The dictionary loop of `dereferenceRefsHelper` (extproc): skip-keys are
copied verbatim, a fresh `$ref` is resolved and returned early, an
already-visited `$ref` is skipped silently, nested dicts and lists are
recursed into, and scalars are copied.  A fresh pointer is marked visited
only for its recursive resolution — `refPath :: processed` is passed down
and the caller's set is untouched — which models Go's
`delete(*processedRefs, refPath)` on function exit. -/
def derefFieldsExt : Nat → JObj → JObj → JObj → List String → List String → GoResult JValue
  | 0, _, _, _, _, _ => fuelCrash
  | fuel + 1, fields, acc, fullSchema, skipKeys, processed =>
    match fields with
    | .nil => .ok (.obj acc)
    | .cons k v rest =>
      if k ∈ skipKeys then
        derefFieldsExt fuel rest (insertGo acc k v) fullSchema skipKeys processed
      else if k = "$ref" then
        match v with
        | .str refPath =>
          if refPath ∈ processed then
            derefFieldsExt fuel rest acc fullSchema skipKeys processed
          else do
            let ref ← retrieveRef refPath fullSchema
            let fullRef ← derefHelperExt fuel ref fullSchema skipKeys (refPath :: processed)
            return fullRef
        | _ => .error (.err "'$ref' value must be a string")
      else
        match v with
        | .obj d => do
          let r ← derefHelperExt fuel (.obj d) fullSchema skipKeys processed
          derefFieldsExt fuel rest (insertGo acc k r) fullSchema skipKeys processed
        | .arr el => do
          let r ← derefHelperExt fuel (.arr el) fullSchema skipKeys processed
          derefFieldsExt fuel rest (insertGo acc k r) fullSchema skipKeys processed
        | _ => derefFieldsExt fuel rest (insertGo acc k v) fullSchema skipKeys processed

/-- The list loop of `dereferenceRefsHelper` (extproc). -/
def derefArrExt : Nat → JArr → JObj → List String → List String → GoResult JArr
  | 0, _, _, _, _ => fuelCrash
  | fuel + 1, l, fullSchema, skipKeys, processed =>
    match l with
    | .nil => .ok .nil
    | .cons el rest => do
      let r ← derefHelperExt fuel el fullSchema skipKeys processed
      let rs ← derefArrExt fuel rest fullSchema skipKeys processed
      return .cons r rs

end

mutual

/-- `inferSkipKeys` of `jsonschema_helper.go` (extproc): walk the schema,
resolve each unseen `$ref`, record the top-level key of its path, and
recurse into the referenced value.  The visited set is shared state that is
never removed on unwind (Go passes the map by reference), so it is threaded
through and returned.  An already-seen `$ref` is skipped (`continue`). -/
def inferSkipKeysExt : Nat → JValue → JObj → List String → GoResult (List String × List String)
  | 0, _, _, _ => fuelCrash
  | fuel + 1, obj, fullSchema, processed =>
    match obj with
    | .obj dict => inferSkipFieldsExt fuel dict fullSchema processed
    | .arr l => inferSkipArrExt fuel l fullSchema processed
    | _ => .ok ([], processed)

/-- The dictionary loop of `inferSkipKeys` (extproc). -/
def inferSkipFieldsExt : Nat → JObj → JObj → List String → GoResult (List String × List String)
  | 0, _, _, _ => fuelCrash
  | fuel + 1, fields, fullSchema, processed =>
    match fields with
    | .nil => .ok ([], processed)
    | .cons k v rest =>
      if k = "$ref" then
        match v with
        | .str refPath =>
          if refPath ∈ processed then
            inferSkipFieldsExt fuel rest fullSchema processed
          else do
            let ref ← retrieveRef refPath fullSchema
            let (nested, p1) ← inferSkipKeysExt fuel ref fullSchema (refPath :: processed)
            let (restKeys, p2) ← inferSkipFieldsExt fuel rest fullSchema p1
            return (refTopLevelKey refPath ++ nested ++ restKeys, p2)
        | _ => .error (.err "'$ref' value must be a string")
      else
        match v with
        | .obj d => do
          let (ks, p1) ← inferSkipKeysExt fuel (.obj d) fullSchema processed
          let (restKeys, p2) ← inferSkipFieldsExt fuel rest fullSchema p1
          return (ks ++ restKeys, p2)
        | .arr el => do
          let (ks, p1) ← inferSkipKeysExt fuel (.arr el) fullSchema processed
          let (restKeys, p2) ← inferSkipFieldsExt fuel rest fullSchema p1
          return (ks ++ restKeys, p2)
        | _ => inferSkipFieldsExt fuel rest fullSchema processed

/-- The list loop of `inferSkipKeys` (extproc). -/
def inferSkipArrExt : Nat → JArr → JObj → List String → GoResult (List String × List String)
  | 0, _, _, _ => fuelCrash
  | fuel + 1, l, fullSchema, processed =>
    match l with
    | .nil => .ok ([], processed)
    | .cons el rest => do
      let (ks, p1) ← inferSkipKeysExt fuel el fullSchema processed
      let (restKeys, p2) ← inferSkipArrExt fuel rest fullSchema p1
      return (ks ++ restKeys, p2)

end

/-- Wrapping of an inner error as `fmt.Errorf("invalid JSON schema: %w", err)`
does in Go; a panic is not an `error` value and is never wrapped. -/
def wrapInvalidSchema : GoErr → GoErr
  | .err m => .err ("invalid JSON schema: " ++ m)
  | .crash m => .crash m

/-- Fuel supplied to the dereference recursions.  Each embedded call
consumes one unit, and a run descends through at most the nodes of the
walked value plus, per distinct `$ref` (their number is bounded by the node
count), the nodes of the retrieved target — all bounded by the square term.
Go needs no fuel (its visited set bounds `$ref` chains), so a fuel-exhausted
`crash` never matches a completed Go run; every pipeline result below is a
non-fuel outcome. -/
def derefFuel (schemaObj : JObj) : Nat :=
  (jsizeObj schemaObj + 2) * (jsizeObj schemaObj + 2)

/-- `dereferenceRefs` of `jsonschema_helper.go` (extproc): infer skip keys
(wrapping a failure), then run the dereference helper with a fresh visited
set. -/
def dereferenceRefs (schemaObj : JObj) : GoResult JValue :=
  match inferSkipKeysExt (derefFuel schemaObj) (.obj schemaObj) schemaObj [] with
  | .error e => .error (wrapInvalidSchema e)
  | .ok (skipKeys, _) =>
    derefHelperExt (derefFuel schemaObj) (.obj schemaObj) schemaObj skipKeys []

mutual

/-- `jsonSchemaDereferenceHelper` of the Gemini translator (part_002):
identical to the extproc `dereferenceRefsHelper` except that encountering an
already-visited `$ref` is an error (`self recursive schema is currently not
supported`) instead of a silent skip.  Like the extproc helper it removes
the visited entry on unwind (`delete(processedRefs, refPath)` on exit,
modelled by passing `refPath :: processed` only into the recursive
resolution). -/
def jsonSchemaDereferenceHelper : Nat → JValue → JObj → List String → List String → GoResult JValue
  | 0, _, _, _, _ => fuelCrash
  | fuel + 1, obj, fullSchema, skipKeys, processed =>
    match obj with
    | .obj dict => jsonSchemaDerefFields fuel dict .nil fullSchema skipKeys processed
    | .arr l => do
      let l' ← jsonSchemaDerefArr fuel l fullSchema skipKeys processed
      return .arr l'
    | v => .ok v

/-- The dictionary loop of `jsonSchemaDereferenceHelper` (part_002). -/
def jsonSchemaDerefFields : Nat → JObj → JObj → JObj → List String → List String → GoResult JValue
  | 0, _, _, _, _, _ => fuelCrash
  | fuel + 1, fields, acc, fullSchema, skipKeys, processed =>
    match fields with
    | .nil => .ok (.obj acc)
    | .cons k v rest =>
      if k ∈ skipKeys then
        jsonSchemaDerefFields fuel rest (insertGo acc k v) fullSchema skipKeys processed
      else if k = "$ref" then
        match v with
        | .str refPath =>
          if refPath ∈ processed then
            .error (.err "self recursive schema is currently not supported")
          else do
            let ref ← retrieveRef refPath fullSchema
            let fullRef ← jsonSchemaDereferenceHelper fuel ref fullSchema skipKeys (refPath :: processed)
            return fullRef
        | _ => .error (.err "'$ref' value must be a string")
      else
        match v with
        | .obj d => do
          let r ← jsonSchemaDereferenceHelper fuel (.obj d) fullSchema skipKeys processed
          jsonSchemaDerefFields fuel rest (insertGo acc k r) fullSchema skipKeys processed
        | .arr el => do
          let r ← jsonSchemaDereferenceHelper fuel (.arr el) fullSchema skipKeys processed
          jsonSchemaDerefFields fuel rest (insertGo acc k r) fullSchema skipKeys processed
        | _ => jsonSchemaDerefFields fuel rest (insertGo acc k v) fullSchema skipKeys processed

/-- The list loop of `jsonSchemaDereferenceHelper` (part_002). -/
def jsonSchemaDerefArr : Nat → JArr → JObj → List String → List String → GoResult JArr
  | 0, _, _, _, _ => fuelCrash
  | fuel + 1, l, fullSchema, skipKeys, processed =>
    match l with
    | .nil => .ok .nil
    | .cons el rest => do
      let r ← jsonSchemaDereferenceHelper fuel el fullSchema skipKeys processed
      let rs ← jsonSchemaDerefArr fuel rest fullSchema skipKeys processed
      return .cons r rs

end

mutual

/-- `jsonSchemaSkipKeys` of the Gemini translator (part_002): identical to
the extproc `inferSkipKeys` except that an already-visited `$ref` is an
error instead of a silent skip — and since this visited set is never removed
on unwind, even two sibling references to the same pointer trip it. -/
def jsonSchemaSkipKeys : Nat → JValue → JObj → List String → GoResult (List String × List String)
  | 0, _, _, _ => fuelCrash
  | fuel + 1, obj, fullSchema, processed =>
    match obj with
    | .obj dict => jsonSchemaSkipFields fuel dict fullSchema processed
    | .arr l => jsonSchemaSkipArr fuel l fullSchema processed
    | _ => .ok ([], processed)

/-- The dictionary loop of `jsonSchemaSkipKeys` (part_002). -/
def jsonSchemaSkipFields : Nat → JObj → JObj → List String → GoResult (List String × List String)
  | 0, _, _, _ => fuelCrash
  | fuel + 1, fields, fullSchema, processed =>
    match fields with
    | .nil => .ok ([], processed)
    | .cons k v rest =>
      if k = "$ref" then
        match v with
        | .str refPath =>
          if refPath ∈ processed then
            .error (.err "self recursive schema is currently not supported")
          else do
            let ref ← retrieveRef refPath fullSchema
            let (nested, p1) ← jsonSchemaSkipKeys fuel ref fullSchema (refPath :: processed)
            let (restKeys, p2) ← jsonSchemaSkipFields fuel rest fullSchema p1
            return (refTopLevelKey refPath ++ nested ++ restKeys, p2)
        | _ => .error (.err "'$ref' value must be a string")
      else
        match v with
        | .obj d => do
          let (ks, p1) ← jsonSchemaSkipKeys fuel (.obj d) fullSchema processed
          let (restKeys, p2) ← jsonSchemaSkipFields fuel rest fullSchema p1
          return (ks ++ restKeys, p2)
        | .arr el => do
          let (ks, p1) ← jsonSchemaSkipKeys fuel (.arr el) fullSchema processed
          let (restKeys, p2) ← jsonSchemaSkipFields fuel rest fullSchema p1
          return (ks ++ restKeys, p2)
        | _ => jsonSchemaSkipFields fuel rest fullSchema processed

/-- The list loop of `jsonSchemaSkipKeys` (part_002). -/
def jsonSchemaSkipArr : Nat → JArr → JObj → List String → GoResult (List String × List String)
  | 0, _, _, _ => fuelCrash
  | fuel + 1, l, fullSchema, processed =>
    match l with
    | .nil => .ok ([], processed)
    | .cons el rest => do
      let (ks, p1) ← jsonSchemaSkipKeys fuel el fullSchema processed
      let (restKeys, p2) ← jsonSchemaSkipArr fuel rest fullSchema p1
      return (ks ++ restKeys, p2)

end

/-- `jsonSchemaDereference` of the Gemini translator (part_002): skip-key
inference (wrapping a failure), then the dereference helper with a fresh
visited set. -/
def jsonSchemaDereference (schemaObj : JObj) : GoResult JValue :=
  match jsonSchemaSkipKeys (derefFuel schemaObj) (.obj schemaObj) schemaObj [] with
  | .error e => .error (wrapInvalidSchema e)
  | .ok (skipKeys, _) =>
    jsonSchemaDereferenceHelper (derefFuel schemaObj) (.obj schemaObj) schemaObj skipKeys []

/-- The cyclic schema of the spec's circular-reference test:
`$defs.A` references `#/$defs/B`, `$defs.B` references `#/$defs/A`, and the
root references `#/$defs/A`. -/
def cyclicSchema : JObj :=
  .ofList
    [("$defs", .obj (.ofList
        [("A", .obj (.ofList [("$ref", .str "#/$defs/B")])),
         ("B", .obj (.ofList [("$ref", .str "#/$defs/A")]))])),
     ("$ref", .str "#/$defs/A")]

/-- A schema whose two sibling properties reuse the same `$ref` pointer. -/
def siblingSchema : JObj :=
  .ofList
    [("$defs", .obj (.ofList [("X", .obj (.ofList [("type", .str "string")]))])),
     ("properties", .obj (.ofList
        [("a", .obj (.ofList [("$ref", .str "#/$defs/X")])),
         ("b", .obj (.ofList [("$ref", .str "#/$defs/X")]))]))]

/-- The dereferenced sibling schema: both properties inlined. -/
def siblingSchemaDeref : JValue :=
  .obj (.ofList
    [("$defs", .obj (.ofList [("X", .obj (.ofList [("type", .str "string")]))])),
     ("properties", .obj (.ofList
        [("a", .obj (.ofList [("type", .str "string")])),
         ("b", .obj (.ofList [("type", .str "string")]))]))])

/-- Length of a JSON array (`len` in Go). -/
def JArr.length : JArr → Nat
  | .nil => 0
  | .cons _ rest => 1 + JArr.length rest

/-- Merge every entry of `res` into `acc`, in order — the Go loop
`for resKey, resVal := range res { convertedSchema[resKey] = resVal }`. -/
def mergeObjInto (acc : JObj) : JObj → JObj
  | .nil => acc
  | .cons k v rest => mergeObjInto (insertGo acc k v) rest

/-- `allowedSchemaFieldsSet` of `jsonschema_helper.go` (extproc): the GCP
schema dialect allow-list. -/
def allowedSchemaFieldsSet : List String :=
  ["title", "description", "example", "default", "enum", "items", "properties",
   "required", "type", "nullable", "allOf", "anyOf", "not"]

mutual

/-- The key loop of `formatJSONSchemaToGapic` of `jsonschema_helper.go`
(extproc), with the output map under construction as `acc`.  The `switch`
on the key: `$defs` is dropped; `items`/`properties` recurse when map-valued
and are silently dropped otherwise; a `type` list of length two collapses
null plus a concrete type into `type`+`nullable` (merging a formatted map
when the non-null member is itself a map) and any other list errors, while a
non-list `type` is `%v`-rendered; `allOf` errors beyond one entry, inlines a
single map entry by early return (and panics, `index out of range`, on an
empty list); `anyOf` drops null-typed branches into `nullable` and formats
the rest; every other key is kept verbatim if allow-listed, else dropped. -/
def fmtExtFields : JObj → JObj → GoResult JObj
  | .nil, acc => .ok acc
  | .cons k v rest, acc =>
    if k = "$defs" then fmtExtFields rest acc
    else if k = "items" then
      match v with
      | .obj sub => do
        let r ← fmtExtFields sub .nil
        fmtExtFields rest (insertGo acc "items" (.obj r))
      | _ => fmtExtFields rest acc
    else if k = "properties" then
      match v with
      | .obj props => do
        let pr ← fmtExtProps props
        fmtExtFields rest (insertGo acc "properties" (.obj pr))
      | _ => fmtExtFields rest acc
    else if k = "type" then
      match v with
      | .arr typeList =>
        match typeList with
        | .cons t0 (.cons t1 .nil) =>
          if t1 = .str "null" then
            if t0 = .str "null" then
              .error (.err "GcpConversionException: If type is a list, it must contain one non-null type and 'null'., type: REQUEST_CONVERSION")
            else
              match t0 with
              | .null =>
                .error (.err "GcpConversionException: If type is a list, it must contain one non-null type and 'null'., type: REQUEST_CONVERSION")
              | .obj m => do
                let res ← fmtExtFields m .nil
                fmtExtFields rest (insertGo (mergeObjInto acc res) "nullable" (.boolean true))
              | _ =>
                fmtExtFields rest
                  (insertGo (insertGo acc "type" (.str (goSprintfV t0))) "nullable" (.boolean true))
          else if t0 = .str "null" then
            match t1 with
            | .null =>
              .error (.err "GcpConversionException: If type is a list, it must contain one non-null type and 'null'., type: REQUEST_CONVERSION")
            | .obj m => do
              let res ← fmtExtFields m .nil
              fmtExtFields rest (insertGo (mergeObjInto acc res) "nullable" (.boolean true))
            | _ =>
              fmtExtFields rest
                (insertGo (insertGo acc "type" (.str (goSprintfV t1))) "nullable" (.boolean true))
          else
            .error (.err "GcpConversionException: If type is a list, it must contain one non-null type and 'null'., type: REQUEST_CONVERSION")
        | _ =>
          .error (.err ("GcpConversionException: If the value of type is a list, the length of the list must be 2. Got " ++
            toString typeList.length ++ "., type: REQUEST_CONVERSION"))
      | _ => fmtExtFields rest (insertGo acc "type" (.str (goSprintfV v)))
    else if k = "allOf" then
      match v with
      | .arr l =>
        if l.length > 1 then
          .error (.err ("GcpConversionException: Only one value for 'allOf' key is supported. Got " ++
            toString l.length ++ "., type: REQUEST_CONVERSION"))
        else
          match l with
          | .nil => .error (.crash "index out of range")
          | .cons x _ =>
            match x with
            | .obj sub => fmtExtFields sub .nil
            | _ => fmtExtFields rest acc
      | _ => fmtExtFields rest acc
    else if k = "anyOf" then
      match v with
      | .arr l => do
        let (results, nullable) ← fmtExtAnyOf l
        let acc1 := if nullable then insertGo acc "nullable" (.boolean true) else acc
        fmtExtFields rest (insertGo acc1 "anyOf" (.arr results))
      | _ => fmtExtFields rest acc
    else if k ∈ allowedSchemaFieldsSet then
      fmtExtFields rest (insertGo acc k v)
    else
      fmtExtFields rest acc

/-- The `properties` loop of `formatJSONSchemaToGapic` (extproc): map-valued
properties are formatted, others are silently dropped. -/
def fmtExtProps : JObj → GoResult JObj
  | .nil => .ok .nil
  | .cons pk pv rest =>
    match pv with
    | .obj sub => do
      let r ← fmtExtFields sub .nil
      let rs ← fmtExtProps rest
      return .cons pk (.obj r) rs
    | _ => fmtExtProps rest

/-- The `anyOf` loop of `formatJSONSchemaToGapic` (extproc): a map branch
with `type == "null"` sets the nullable flag and is dropped, any other map
branch is formatted, and non-map branches are skipped. -/
def fmtExtAnyOf : JArr → GoResult (JArr × Bool)
  | .nil => .ok (.nil, false)
  | .cons el rest =>
    match el with
    | .obj sub =>
      if lookupKey sub "type" = some (.str "null") then do
        let (rs, _) ← fmtExtAnyOf rest
        return (rs, true)
      else do
        let r ← fmtExtFields sub .nil
        let (rs, nb) ← fmtExtAnyOf rest
        return (.cons (.obj r) rs, nb)
    | _ => fmtExtAnyOf rest

end

/-- `formatJSONSchemaToGapic` of `jsonschema_helper.go` (extproc). -/
def formatJSONSchemaToGapic (schema : JObj) : GoResult JObj :=
  fmtExtFields schema .nil

/-- `sanitizeJSONSchema` of `jsonschema_helper.go` (extproc): dereference,
assert the result is a map, then format for GCP. -/
def sanitizeJSONSchema (schema : JObj) : GoResult JValue := do
  let d ← dereferenceRefs schema
  match d with
  | .obj m => (formatJSONSchemaToGapic m).map JValue.obj
  | _ => .error (.err "dereferenced schema was not a map[string]any")

mutual

/-- The key loop of `jsonSchemaToGapic` of the Gemini translator (part_002),
parameterised by the caller's allow-list.  It differs from the extproc
`formatJSONSchemaToGapic` in rejecting (instead of silently dropping)
non-map `items`/`properties`, non-list-non-string `type`, non-list `allOf`
and `anyOf`, and non-map entries inside `allOf`/`anyOf`. -/
def fmt002Fields (allowed : List String) : JObj → JObj → GoResult JObj
  | .nil, acc => .ok acc
  | .cons k v rest, acc =>
    if k = "$defs" then fmt002Fields allowed rest acc
    else if k = "items" then
      match v with
      | .obj sub => do
        let r ← fmt002Fields allowed sub .nil
        fmt002Fields allowed rest (insertGo acc "items" (.obj r))
      | _ => .error (.err "invalid JSON schema: 'items' must be a dict")
    else if k = "properties" then
      match v with
      | .obj props => do
        let pr ← fmt002Props allowed props
        fmt002Fields allowed rest (insertGo acc "properties" (.obj pr))
      | _ => .error (.err "invalid JSON schema: 'properties' must be a dict")
    else if k = "type" then
      match v with
      | .arr typeList =>
        match typeList with
        | .cons t0 (.cons t1 .nil) =>
          if t1 = .str "null" then
            if t0 = .str "null" then
              .error (.err "invalid JSON schema: If type is a list, it must contain one non-null type and 'null'.")
            else
              match t0 with
              | .null =>
                .error (.err "invalid JSON schema: If type is a list, it must contain one non-null type and 'null'.")
              | .obj m => do
                let res ← fmt002Fields allowed m .nil
                fmt002Fields allowed rest (insertGo (mergeObjInto acc res) "nullable" (.boolean true))
              | _ =>
                fmt002Fields allowed rest
                  (insertGo (insertGo acc "type" (.str (goSprintfV t0))) "nullable" (.boolean true))
          else if t0 = .str "null" then
            match t1 with
            | .null =>
              .error (.err "invalid JSON schema: If type is a list, it must contain one non-null type and 'null'.")
            | .obj m => do
              let res ← fmt002Fields allowed m .nil
              fmt002Fields allowed rest (insertGo (mergeObjInto acc res) "nullable" (.boolean true))
            | _ =>
              fmt002Fields allowed rest
                (insertGo (insertGo acc "type" (.str (goSprintfV t1))) "nullable" (.boolean true))
          else
            .error (.err "invalid JSON schema: If type is a list, it must contain one non-null type and 'null'.")
        | _ =>
          .error (.err ("invalid JSON schema: If the value of type is a list, the length of the list must be 2. Got " ++
            toString typeList.length ++ "."))
      | .str t => fmt002Fields allowed rest (insertGo acc "type" (.str t))
      | _ => .error (.err "invalid JSON schema: the value of 'type' must be a list or a string")
    else if k = "allOf" then
      match v with
      | .arr l =>
        if l.length > 1 then
          .error (.err ("invalid JSON schema: Only one value for 'allOf' key is supported. Got " ++
            toString l.length ++ "."))
        else
          match l with
          | .nil => .error (.crash "index out of range")
          | .cons x _ =>
            match x with
            | .obj sub => fmt002Fields allowed sub .nil
            | _ => .error (.err "invalid JSON schema: item in 'allOf' must be an object (map[string]any)")
      | _ => .error (.err "invalid JSON schema: 'allOf' must be a list")
    else if k = "anyOf" then
      match v with
      | .arr l => do
        let (results, nullable) ← fmt002AnyOf allowed l
        let acc1 := if nullable then insertGo acc "nullable" (.boolean true) else acc
        fmt002Fields allowed rest (insertGo acc1 "anyOf" (.arr results))
      | _ => .error (.err "invalid JSON schema: 'anyOf' must be a list")
    else if k ∈ allowed then
      fmt002Fields allowed rest (insertGo acc k v)
    else
      fmt002Fields allowed rest acc

/-- The `properties` loop of `jsonSchemaToGapic` (part_002): map-valued
properties are formatted, others are silently dropped. -/
def fmt002Props (allowed : List String) : JObj → GoResult JObj
  | .nil => .ok .nil
  | .cons pk pv rest =>
    match pv with
    | .obj sub => do
      let r ← fmt002Fields allowed sub .nil
      let rs ← fmt002Props allowed rest
      return .cons pk (.obj r) rs
    | _ => fmt002Props allowed rest

/-- The `anyOf` loop of `jsonSchemaToGapic` (part_002): a non-map branch is
an error, a `type == "null"` branch sets the nullable flag and is dropped,
and other branches are formatted. -/
def fmt002AnyOf (allowed : List String) : JArr → GoResult (JArr × Bool)
  | .nil => .ok (.nil, false)
  | .cons el rest =>
    match el with
    | .obj sub =>
      if lookupKey sub "type" = some (.str "null") then do
        let (rs, _) ← fmt002AnyOf allowed rest
        return (rs, true)
      else do
        let r ← fmt002Fields allowed sub .nil
        let (rs, nb) ← fmt002AnyOf allowed rest
        return (.cons (.obj r) rs, nb)
    | _ => .error (.err "invalid JSON schema: item in 'anyOf' must be a dict")

end

/-- `jsonSchemaToGapic` of the Gemini translator (part_002). -/
def jsonSchemaToGapic (schema : JObj) (allowed : List String) : GoResult JObj :=
  fmt002Fields allowed schema .nil

/-- The allow-list that `jsonSchemaToGemini` (part_002) passes to
`jsonSchemaToGapic`: the supported field names of `genai.Schema`. -/
def geminiAllowedSchemaFields : List String :=
  ["anyOf", "default", "description", "enum", "example", "format", "items",
   "maxItems", "maxLength", "maxProperties", "maximum", "minItems",
   "minLength", "minProperties", "minimum", "nullable", "pattern",
   "properties", "propertyOrdering", "required", "title", "type"]

/-- `jsonSchemaToGemini` (part_002) up to the produced schema map:
dereference, assert the result is a map, then format with the Gemini
allow-list.  (The final re-marshalling of the map into the third-party
`genai.Schema` struct is outside the translation logic modelled here.) -/
def jsonSchemaToGeminiMap (schema : JObj) : GoResult JObj := do
  let d ← jsonSchemaDereference schema
  match d with
  | .obj m => jsonSchemaToGapic m geminiAllowedSchemaFields
  | _ => .error (.err "dereferenced schema was not a map[string]any")

mutual

/-- One output entry of the projection walk is well-formed: its key is
allow-listed (so in particular it is neither `$ref` nor `$defs`), and the
values the walk itself produced under `items`, `properties` and `anyOf` are
again well-formed nodes.  Values of the remaining allow-listed keys were
kept verbatim and are unconstrained. -/
def entryOK (k : String) (v : JValue) : Bool :=
  decide (k ∈ allowedSchemaFieldsSet) &&
  (if k = "items" then
    match v with | .obj o => sanitizedObj o | _ => false
   else if k = "properties" then
    match v with | .obj p => sanitizedProps p | _ => false
   else if k = "anyOf" then
    match v with | .arr l => sanitizedArr l | _ => false
   else true)

/-- Every entry of a walked output node is well-formed. -/
def sanitizedObj : JObj → Bool
  | .nil => true
  | .cons k v rest => entryOK k v && sanitizedObj rest

/-- Every property value of a walked output node is a well-formed node. -/
def sanitizedProps : JObj → Bool
  | .nil => true
  | .cons _ pv rest =>
    (match pv with | .obj o => sanitizedObj o | _ => false) && sanitizedProps rest

/-- Every `anyOf` member of a walked output node is a well-formed node. -/
def sanitizedArr : JArr → Bool
  | .nil => true
  | .cons el rest =>
    (match el with | .obj o => sanitizedObj o | _ => false) && sanitizedArr rest

end

mutual

/-- Does any object node anywhere in the tree (including inside values kept
verbatim) carry the key `needle`? -/
def containsKeyDeep (needle : String) : JValue → Bool
  | .null => false
  | .boolean _ => false
  | .num _ => false
  | .str _ => false
  | .arr l => containsKeyDeepArr needle l
  | .obj f => containsKeyDeepObj needle f

/-- `containsKeyDeep` over array elements. -/
def containsKeyDeepArr (needle : String) : JArr → Bool
  | .nil => false
  | .cons x xs => containsKeyDeep needle x || containsKeyDeepArr needle xs

/-- `containsKeyDeep` over object entries (the key itself and the value). -/
def containsKeyDeepObj (needle : String) : JObj → Bool
  | .nil => false
  | .cons k v rest =>
    decide (k = needle) || containsKeyDeep needle v || containsKeyDeepObj needle rest

end

/-- The schema used to refute C6: an allow-listed `default` key whose value
contains a `$defs` object that the projection keeps verbatim. -/
def c6schema : JObj :=
  .ofList [("default", .obj (.ofList [("$defs", .obj (.ofList [("a", .num 5)]))]))]

/-- What `Sanitize` returns on `c6schema` (the input, unchanged). -/
def c6out : JValue :=
  .obj (.ofList [("default", .obj (.ofList [("$defs", .obj (.ofList [("a", .num 5)]))]))])

/-- Concatenation of object field lists. -/
def JObj.append : JObj → JObj → JObj
  | .nil, o => o
  | .cons k v rest, o => .cons k v (JObj.append rest o)

mutual

/-- Deep well-formedness: every object node in the tree has pairwise
distinct keys (always true of values decoded from Go maps). -/
def wfDeep : JValue → Bool
  | .null => true
  | .boolean _ => true
  | .num _ => true
  | .str _ => true
  | .arr l => wfDeepArr l
  | .obj f => decide (JObj.keys f).Nodup && wfDeepObj f

/-- `wfDeep` over array elements. -/
def wfDeepArr : JArr → Bool
  | .nil => true
  | .cons x xs => wfDeep x && wfDeepArr xs

/-- `wfDeep` over object entry values. -/
def wfDeepObj : JObj → Bool
  | .nil => true
  | .cons _ v rest => wfDeep v && wfDeepObj rest

end

/-- The shape of a `type` value that the collapse handles without creating
new nodes: a plain string, or an array of strings. -/
def typeValOK : JValue → Bool
  | .str _ => true
  | .arr l => typeValStrings l
  | _ => false
where
  /-- All elements are strings. -/
  typeValStrings : JArr → Bool
  | .nil => true
  | .cons (.str _) xs => typeValStrings xs
  | .cons _ _ => false

mutual

/-- Tameness of an input schema tree: no `$ref` and no `allOf` keys
anywhere, and every `type` value is a string or an array of strings. -/
def tameV : JValue → Bool
  | .null => true
  | .boolean _ => true
  | .num _ => true
  | .str _ => true
  | .arr l => tameArr l
  | .obj f => tameObj f

/-- `tameV` over array elements. -/
def tameArr : JArr → Bool
  | .nil => true
  | .cons x xs => tameV x && tameArr xs

/-- `tameV` over object entries. -/
def tameObj : JObj → Bool
  | .nil => true
  | .cons k v rest =>
    !decide (k = "$ref") && !decide (k = "allOf") &&
    (!decide (k = "type") || typeValOK v) &&
    tameV v && tameObj rest

end

mutual

/-- Fixpoint shape of the extproc formatter, entry part: each entry the
formatter would process is reproduced verbatim. -/
def gEntryOK : String → JValue → Bool
  | k, v =>
    decide (k ∈ allowedSchemaFieldsSet) && !decide (k = "allOf") &&
    (if k = "items" then
      match v with
      | .obj o => gObjE o && decide (JObj.keys o).Nodup
      | _ => false
     else if k = "properties" then
      match v with
      | .obj p => gProps p && decide (JObj.keys p).Nodup
      | _ => false
     else if k = "type" then
      match v with | .str _ => true | _ => false
     else if k = "anyOf" then
      match v with | .arr l => gArr l | _ => false
     else wfDeep v && !containsKeyDeep "$ref" v)

/-- Fixpoint shape of the extproc formatter over a node's entries. -/
def gObjE : JObj → Bool
  | .nil => true
  | .cons k v rest => gEntryOK k v && gObjE rest

/-- Fixpoint shape over a `properties` map: every value is a fixpoint node
with distinct keys and no property is named `$ref`. -/
def gProps : JObj → Bool
  | .nil => true
  | .cons pk pv rest =>
    !decide (pk = "$ref") &&
    (match pv with
     | .obj o => gObjE o && decide (JObj.keys o).Nodup
     | _ => false) && gProps rest

/-- Fixpoint shape over an `anyOf` list: every member is a fixpoint node
with distinct keys whose `type` is not the string `null`. -/
def gArr : JArr → Bool
  | .nil => true
  | .cons el rest =>
    (match el with
     | .obj o => gObjE o && decide (JObj.keys o).Nodup &&
         !decide (lookupKey o "type" = some (.str "null"))
     | _ => false) && gArr rest

end

/-- A full fixpoint node: fixpoint entries plus distinct keys. -/
def gObj (m : JObj) : Bool := gObjE m && decide (JObj.keys m).Nodup

/-- Counterexample schema for sanitizer idempotence: an `anyOf` member whose
two-element `type` list merges a formatted sub-map carrying
`type: "null"`. -/
def c7inner : JObj := .cons "type" (.str "null") .nil

/-- The `anyOf` member of `c7s`. -/
def c7member : JObj :=
  .cons "type" (.arr (.cons (.obj c7inner) (.cons (.str "null") .nil))) .nil

/-- A `$ref`-free schema on which `sanitizeJSONSchema` succeeds but is not
idempotent. -/
def c7s : JObj := .cons "anyOf" (.arr (.cons (.obj c7member) .nil)) .nil

/-- First sanitizer output for `c7s`: the surviving `anyOf` member now says
`type: "null"`. -/
def c7o1 : JObj :=
  .cons "anyOf"
    (.arr (.cons
      (.obj (.cons "type" (.str "null") (.cons "nullable" (.boolean true) .nil)))
      .nil))
    .nil

/-- Second sanitizer output: the member is now dropped as a null branch. -/
def c7o2 : JObj :=
  .cons "nullable" (.boolean true) (.cons "anyOf" (.arr .nil) .nil)

/-- Modelled from the spec: the LLM token-usage record of the metrics
package (input, cached-input, output and total token counters, all set). -/
structure LLMTokenUsage where
  inputTokens : Nat
  cachedInputTokens : Nat
  outputTokens : Nat
  totalTokens : Nat
deriving DecidableEq, Repr

/-- Modelled from the spec: the Anthropic token-usage accountant
(`ExtractLLMTokenUsage` over an Anthropic usage block with base input `i`,
output `o`, cache-read `r` and cache-creation `c` tokens).  Per the spec and
the expectations of
`TestExtractLLMTokenUsage_ClaudeAPIDocumentationCompliance`, cache-creation
and cache-read tokens fold into the input total, both fold into
cached-input, and the total is input plus output.  (The Go accountant's
code is not among the staged files; counters are modelled as `Nat` — the
Go `uint32` casts never wrap on the spec's example values.) -/
def extractLLMTokenUsageFromAnthropic (i o r c : Nat) : LLMTokenUsage :=
  { inputTokens := i + c + r
    cachedInputTokens := r + c
    outputTokens := o
    totalTokens := (i + c + r) + o }

/-- `TokenizeCompletionRequest` of `apischema/tokenize/tokenize.go` (the
fields the translators read). -/
structure TokenizeCompletionRequest where
  model : String
  prompt : String
  addSpecialTokens : Bool
deriving DecidableEq, Repr

/-- `TokenizeChatRequest` of `apischema/tokenize/tokenize.go`: the messages
payload is kept as an opaque JSON value, the validated flags are modelled
directly. -/
structure TokenizeChatRequest where
  model : String
  messages : JValue
  addGenerationPrompt : Bool
  continueFinalMessage : Bool
deriving DecidableEq, Repr

/-- `TokenizeRequestUnion` of `apischema/tokenize/tokenize.go`: the two
embedded request pointers (`nil` = `none`). -/
structure TokenizeRequestUnion where
  ofCompletion : Option TokenizeCompletionRequest
  ofChat : Option TokenizeChatRequest
deriving DecidableEq, Repr

/-- `TokenizeChatRequest.Validate`. -/
def TokenizeChatRequest.validate (r : TokenizeChatRequest) : GoResult Unit :=
  if r.continueFinalMessage && r.addGenerationPrompt then
    .error (.err "cannot set both continue_final_message and add_generation_prompt to true")
  else .ok ()

/-- `TokenizeRequestUnion.Validate`: both set, then neither set, are
rejected. -/
def TokenizeRequestUnion.validate (r : TokenizeRequestUnion) : GoResult Unit :=
  if r.ofCompletion.isSome && r.ofChat.isSome then
    .error (.err "only one request type can be set")
  else if r.ofCompletion.isNone && r.ofChat.isNone then
    .error (.err "one request type must be set")
  else .ok ()

/-- `fmt.Errorf("invalid tokenize request: %w", err)`. -/
def wrapInvalidTokenize : GoErr → GoErr
  | .err m => .err ("invalid tokenize request: " ++ m)
  | .crash m => .crash m

/-- `fmt.Errorf(p + "%w", err)` for the other wrapping sites. -/
def wrapGoErr (p : String) : GoErr → GoErr
  | .err m => .err (p ++ m)
  | .crash m => .crash m

/-- `TranslatorV1Tokenize.RequestBody` (the OpenAI passthrough tokenize
translator): validate the union, optionally rewrite the model field
(`sjson.SetBytes`, abstracted as `setModelField`), always set the path
header, fall back to the original body under `forceBodyMutation`, and add a
content-length header when a body is produced.  Bodies are byte strings
modelled as `String`. -/
def translatorV1TokenizeRequestBody
    (setModelField : String → String → GoResult String)
    (modelNameOverride : String) (original : String)
    (req : TokenizeRequestUnion) (forceBodyMutation : Bool) :
    GoResult (List (String × String) × String) :=
  match req.validate with
  | .error e => .error (wrapInvalidTokenize e)
  | .ok _ =>
    match
      (if modelNameOverride ≠ "" then
        setModelField original modelNameOverride
       else .ok "") with
    | .error e => .error (wrapGoErr "failed to set model name: " e)
    | .ok newBody0 =>
      let newBody := if forceBodyMutation && newBody0.length = 0 then original
                     else newBody0
      let headers := [(":path", "/tokenize")] ++
        (if newBody.length > 0 then
          [("content-length", toString newBody.length)] else [])
      .ok (headers, newBody)

/-- `ToAWSBedrockTranslatorV1Tokenize.RequestBody` (part_003): validate the
union, require the chat variant, apply the model override, build the
CountTokens path from the escaped model name, convert
(`tokenizeToBedrockCountTokens`, abstracted as `conv`) and marshal
(abstracted as `marshal`). -/
def toAWSBedrockTokenizeRequestBody (α : Type)
    (conv : TokenizeChatRequest → GoResult α)
    (marshal : α → GoResult String)
    (pathEscape : String → String)
    (modelNameOverride : String) (req : TokenizeRequestUnion) :
    GoResult (List (String × String) × String) :=
  match req.validate with
  | .error e => .error (wrapInvalidTokenize e)
  | .ok _ =>
    match req.ofChat with
    | none => .error (.err "only TokenizeChatRequest is supported for AWS Bedrock models")
    | some chat =>
      let model := if modelNameOverride ≠ "" then modelNameOverride else chat.model
      match conv chat with
      | .error e => .error (wrapGoErr "error converting to Bedrock request: " e)
      | .ok breq =>
        match marshal breq with
        | .error e =>
          .error (wrapGoErr "error marshaling Bedrock count tokens request: " e)
        | .ok body =>
          .ok ([(":path", "/model/" ++ pathEscape model ++ "/count-tokens"),
                ("content-length", toString body.length)], body)

/-- `ToGCPAnthropicTranslatorV1Tokenize.RequestBody`
(tokenize_gcpanthropic.go): validate the union, require the chat variant,
apply the model override, convert (`tokenizeToAnthropicMessages`, abstracted
as `conv`), marshal, and set the `anthropic_version` field (abstracted as
`setVersion`); `path` abstracts the constant
`buildGCPModelPathSuffix(gcpModelPublisherAnthropic, "count-tokens",
gcpMethodRawPredict)`, whose builder is outside the staged files. -/
def toGCPAnthropicTokenizeRequestBody (α : Type)
    (conv : TokenizeChatRequest → String → GoResult α)
    (marshal : α → GoResult String)
    (setVersion : String → GoResult String)
    (path : String)
    (modelNameOverride : String) (req : TokenizeRequestUnion) :
    GoResult (List (String × String) × String) :=
  match req.validate with
  | .error e => .error (wrapInvalidTokenize e)
  | .ok _ =>
    match req.ofChat with
    | none => .error (.err "only TokenizeChatRequest is supported for gcp anthropic models")
    | some chat =>
      let model := if modelNameOverride ≠ "" then modelNameOverride else chat.model
      match conv chat model with
      | .error e => .error (wrapGoErr "error converting to Anthropic request: " e)
      | .ok areq =>
        match marshal areq with
        | .error e =>
          .error (wrapGoErr "error marshaling Anthropic messages request: " e)
        | .ok body0 =>
          match setVersion body0 with
          | .error e => .error (wrapGoErr "failed to set anthropic_version: " e)
          | .ok body =>
            .ok ([(":path", path),
                  ("content-length", toString body.length)], body)

/-- `TokenizeEndpointSpec.ParseBody` (endpointspec.go) over an
already-decoded JSON object body: classify by the presence of the top-level
`messages` key, unmarshal the corresponding variant (the Go struct decoders
are abstracted as `chatOf` / `complOf`), validate the chat flags, build the
one-variant union, validate it, and return `stream = false`. -/
def tokenizeEndpointSpecParseBody
    (chatOf : JObj → GoResult TokenizeChatRequest)
    (complOf : JObj → GoResult TokenizeCompletionRequest)
    (raw : JObj) :
    GoResult (String × TokenizeRequestUnion × Bool) :=
  if (lookupKey raw "messages").isSome then
    match chatOf raw with
    | .error e => .error (wrapGoErr "failed to unmarshal chat tokenize request: " e)
    | .ok chatReq =>
      match chatReq.validate with
      | .error e => .error (wrapGoErr "invalid chat tokenize request: " e)
      | .ok _ =>
        let req : TokenizeRequestUnion := ⟨none, some chatReq⟩
        match req.validate with
        | .error e => .error (wrapInvalidTokenize e)
        | .ok _ => .ok (chatReq.model, req, false)
  else
    match complOf raw with
    | .error e =>
      .error (wrapGoErr "failed to unmarshal completion tokenize request: " e)
    | .ok complReq =>
      let req : TokenizeRequestUnion := ⟨some complReq, none⟩
      match req.validate with
      | .error e => .error (wrapInvalidTokenize e)
      | .ok _ => .ok (complReq.model, req, false)

/-- Go `strings.HasSuffix` on byte strings modelled as `String`. -/
def goHasSuffix (s suf : String) : Bool := List.isSuffixOf suf.data s.data

/-- The streaming `newBody` of
`openAIToAwsOpenAITranslatorV1ChatCompletion.ResponseBody` (part_007): the
read bytes pass through unchanged, then on end-of-stream the sentinel
`"data: [DONE]\n"` (a single trailing newline) is appended unless the
current call's bytes already end with it.  (The token-usage scan over the
same bytes does not affect `newBody` and is not modelled.) -/
def awsOpenAIResponseBodyStream (buf : String) (endOfStream : Bool) : String :=
  if endOfStream && !(goHasSuffix buf "data: [DONE]\n") then
    buf ++ "data: [DONE]\n"
  else buf

/-- The streaming `newBody` of
`openAIToAWSInvokeOpenAITranslatorV1ChatCompletion.ResponseBody`
(openai_gcpvertexai_embeddings.go), given the SSE text produced by
`convertEventStreamToSSE` for the current call: on end-of-stream the
sentinel `"data: [DONE]\n\n"` is appended unless the current call's SSE
already ends with it. -/
def awsInvokeOpenAIResponseBodyStream (sse : String) (endOfStream : Bool) : String :=
  if endOfStream && !(goHasSuffix sse "data: [DONE]\n\n") then
    sse ++ "data: [DONE]\n\n"
  else sse

/-- The decode loop of `convertEventStreamToSSE`
(openai_gcpvertexai_embeddings.go).  The AWS SDK EventStream decoder, the
`{"bytes": ...}` JSON field extraction and the base64 decoding are library
code outside the staged files and are abstracted as parameters: `dec`
returns a decoded payload and the number of consumed bytes, or an error for
an incomplete or invalid message.  The loop mirrors the Go `for`: a decode
error `break`s — the remaining (partial-frame) bytes are NOT kept anywhere —
a field-extraction or base64 failure `continue`s, and each decoded chunk is
emitted as `"data: JSON\n\n"`.  Fuel bounds the iterations; each Go round
consumes at least one byte of the reader, so `length + 1` rounds always
suffice. -/
def convertESLoop (dec : List Nat → GoResult (String × Nat))
    (bytesField : String → Option String)
    (b64 : String → GoResult String) : Nat → List Nat → String
  | 0, _ => ""
  | fuel + 1, data =>
    match dec data with
    | .error _ => ""
    | .ok (payload, n) =>
      let rest := data.drop n
      let chunk :=
        match bytesField payload with
        | none => ""
        | some b =>
          match b64 b with
          | .error _ => ""
          | .ok decoded => "data: " ++ decoded ++ "\n\n"
      chunk ++ convertESLoop dec bytesField b64 fuel rest

/-- `convertEventStreamToSSE` (openai_gcpvertexai_embeddings.go): empty
input yields nothing; otherwise run the decode loop on the current call's
bytes only — the translator keeps no buffer between calls. -/
def convertEventStreamToSSE (dec : List Nat → GoResult (String × Nat))
    (bytesField : String → Option String)
    (b64 : String → GoResult String) (data : List Nat) : String :=
  if data.length = 0 then ""
  else convertESLoop dec bytesField b64 (data.length + 1) data

/-- The decode loop of `extractAnthropicSSEFromEventStream`
(openai_awsanthropic.go), with the same library abstractions plus `typeOf`
for the `gjson` event-type extraction.  Unlike `convertESLoop`, a decode
error returns the not-yet-consumed bytes (`bufferedBody[lastRead:]`) so the
caller keeps them buffered; events are emitted as
`"event: TYPE\ndata: JSON\n\n"`. -/
def extractESLoop (dec : List Nat → GoResult (String × Nat))
    (bytesField : String → Option String)
    (b64 : String → GoResult String)
    (typeOf : String → String) : Nat → List Nat → String × List Nat
  | 0, data => ("", data)
  | fuel + 1, data =>
    match dec data with
    | .error _ => ("", data)
    | .ok (payload, n) =>
      let rest := data.drop n
      match bytesField payload with
      | none => extractESLoop dec bytesField b64 typeOf fuel rest
      | some b =>
        match b64 b with
        | .error _ => extractESLoop dec bytesField b64 typeOf fuel rest
        | .ok decoded =>
          let sse := "event: " ++ typeOf decoded ++ "\ndata: " ++ decoded ++ "\n\n"
          let r2 := extractESLoop dec bytesField b64 typeOf fuel rest
          (sse ++ r2.1, r2.2)

/-- `extractAnthropicSSEFromEventStream` (openai_awsanthropic.go) on the
current buffered bytes: returns the extracted SSE and the new buffer. -/
def extractAnthropicSSEFromEventStream
    (dec : List Nat → GoResult (String × Nat))
    (bytesField : String → Option String)
    (b64 : String → GoResult String)
    (typeOf : String → String) (bufferedBody : List Nat) : String × List Nat :=
  if bufferedBody.length = 0 then ("", bufferedBody)
  else extractESLoop dec bytesField b64 typeOf (bufferedBody.length + 1) bufferedBody

/-- One streaming `ResponseBody` call of the AWS Anthropic translator
(openai_awsanthropic.go): append the read bytes to the buffer, then extract
(`o.bufferedBody = append(o.bufferedBody, buf...)`). -/
def awsAnthropicStreamStep
    (dec : List Nat → GoResult (String × Nat))
    (bytesField : String → Option String)
    (b64 : String → GoResult String)
    (typeOf : String → String)
    (buffered input : List Nat) : String × List Nat :=
  extractAnthropicSSEFromEventStream dec bytesField b64 typeOf (buffered ++ input)

/-- A minimal length-prefixed frame decoder standing in for the AWS SDK
EventStream decoder in the C4 counterexample: a frame is one length byte
followed by that many payload bytes; a strict prefix of a frame fails to
decode, as the real decoder's prelude/CRC checks do on a truncated
message. -/
def c4dec : List Nat → GoResult (String × Nat)
  | [] => .error (.err "EOF")
  | len :: rest =>
    if rest.length < len then .error (.err "incomplete message")
    else .ok (String.mk ((rest.take len).map Char.ofNat), len + 1)

/-- The `{"bytes": ...}` extraction of the C4 counterexample: identity. -/
def c4bytesField (p : String) : Option String := some p

/-- The base64 decoding of the C4 counterexample: identity. -/
def c4b64 (b : String) : GoResult String := .ok b

/-- The event-type extraction of the C4 counterexample: constant. -/
def c4typeOf (_ : String) : String := "event"

/-- First read: frame `A` (payload `"a"`) followed by the first two bytes
of frame `B` (payload `"hello"`). -/
def c4call1 : List Nat := [1, 97, 5, 104, 101]

/-- Second read: the remaining three bytes of frame `B`. -/
def c4call2 : List Nat := [108, 108, 111]

/-- Inserting a well-formed entry preserves node well-formedness. -/
theorem insertGo_sanitized : ∀ (acc : JObj) (k : String) (v : JValue),
    sanitizedObj acc = true → entryOK k v = true →
    sanitizedObj (insertGo acc k v) = true
  | .nil, k, v, _, hkv => by simp [insertGo, sanitizedObj, hkv]
  | .cons k' v' rest, k, v, hacc, hkv => by
    simp only [sanitizedObj, Bool.and_eq_true] at hacc
    by_cases h : k' = k
    · simp [insertGo, h, sanitizedObj, hkv, hacc.2]
    · simp [insertGo, h, sanitizedObj, hacc.1,
        insertGo_sanitized rest k v hacc.2 hkv]

/-- Merging a well-formed node into a well-formed node preserves
well-formedness. -/
theorem mergeObjInto_sanitized : ∀ (res acc : JObj),
    sanitizedObj acc = true → sanitizedObj res = true →
    sanitizedObj (mergeObjInto acc res) = true
  | .nil, acc, hacc, _ => by simpa [mergeObjInto] using hacc
  | .cons k v rest, acc, hacc, hres => by
    simp only [sanitizedObj, Bool.and_eq_true] at hres
    simpa [mergeObjInto] using
      mergeObjInto_sanitized rest (insertGo acc k v)
        (insertGo_sanitized acc k v hacc hres.1) hres.2

/-- Eliminator for a successful `Except` bind. -/
theorem goBind_eq_ok {α β : Type} (x : GoResult α) (f : α → GoResult β) (b : β) :
    (x >>= f) = .ok b ↔ ∃ a, x = .ok a ∧ f a = .ok b := by
  cases x <;> simp [Bind.bind, Except.bind]

/-- The empty node is well-formed. -/
theorem sanitizedObj_nil : sanitizedObj .nil = true := rfl

/-- `items` entries produced by the walk are well-formed. -/
theorem entryOK_items {o : JObj} (h : sanitizedObj o = true) :
    entryOK "items" (.obj o) = true := by
  unfold entryOK
  simp [allowedSchemaFieldsSet, h]

/-- `properties` entries produced by the walk are well-formed. -/
theorem entryOK_properties {o : JObj} (h : sanitizedProps o = true) :
    entryOK "properties" (.obj o) = true := by
  unfold entryOK
  simp [allowedSchemaFieldsSet, h]

/-- `anyOf` entries produced by the walk are well-formed. -/
theorem entryOK_anyOf {l : JArr} (h : sanitizedArr l = true) :
    entryOK "anyOf" (.arr l) = true := by
  unfold entryOK
  simp [allowedSchemaFieldsSet, h]

/-- A string-valued `type` entry is well-formed. -/
theorem entryOK_type_str (s : String) : entryOK "type" (.str s) = true := by
  unfold entryOK
  simp [allowedSchemaFieldsSet]

/-- The `nullable := true` entry is well-formed. -/
theorem entryOK_nullable : entryOK "nullable" (.boolean true) = true := by
  decide

/-- Any allow-listed key other than the specially-walked three may carry an
arbitrary verbatim value. -/
theorem entryOK_other {k : String} (v : JValue)
    (h1 : k ≠ "items") (h2 : k ≠ "properties") (h3 : k ≠ "anyOf")
    (hmem : k ∈ allowedSchemaFieldsSet) : entryOK k v = true := by
  unfold entryOK
  simp [h1, h2, h3, hmem]

/-- Joint structural invariant of the extproc projection walk
(`formatJSONSchemaToGapic`): starting from a well-formed accumulator, a
successful walk only produces well-formed nodes. -/
theorem fmtExt_sanitized_all : ∀ n : Nat,
    (∀ fields acc out, sizeOf fields ≤ n → fmtExtFields fields acc = .ok out →
      sanitizedObj acc = true → sanitizedObj out = true) ∧
    (∀ props out, sizeOf props ≤ n → fmtExtProps props = .ok out →
      sanitizedProps out = true) ∧
    (∀ l res nb, sizeOf l ≤ n → fmtExtAnyOf l = .ok (res, nb) →
      sanitizedArr res = true) := by
  intro n
  induction n with
  | zero =>
    refine ⟨?_, ?_, ?_⟩
    · intro fields _ _ hsz _ _
      exfalso; cases fields <;> simp at hsz
    · intro props _ hsz _
      exfalso; cases props <;> simp at hsz
    · intro l _ _ hsz _
      exfalso; cases l <;> simp at hsz
  | succ n ih =>
    obtain ⟨ihF, ihP, ihA⟩ := ih
    refine ⟨?_, ?_, ?_⟩
    · intro fields acc out hsz h hacc
      cases fields with
      | nil =>
        simp only [fmtExtFields] at h
        cases h
        exact hacc
      | cons k v rest =>
        have hszrest : sizeOf rest ≤ n := by simp at hsz; omega
        unfold fmtExtFields at h
        by_cases hdefs : k = "$defs"
        · simp only [hdefs, if_pos rfl] at h
          exact ihF rest acc out hszrest h hacc
        · rw [if_neg hdefs] at h
          by_cases hitems : k = "items"
          · rw [if_pos hitems] at h
            cases v with
            | obj sub =>
              try simp only [] at h
              rw [goBind_eq_ok] at h
              obtain ⟨r, hr, h2⟩ := h
              have hszsub : sizeOf sub ≤ n := by simp at hsz; omega
              have hrS := ihF sub .nil r hszsub hr sanitizedObj_nil
              exact ihF rest _ out hszrest h2 (insertGo_sanitized acc "items" _ hacc (entryOK_items hrS))
            | null => try simp only [] at h
                      exact ihF rest acc out hszrest h hacc
            | boolean b => try simp only [] at h
                           exact ihF rest acc out hszrest h hacc
            | num m => try simp only [] at h
                       exact ihF rest acc out hszrest h hacc
            | str s => try simp only [] at h
                       exact ihF rest acc out hszrest h hacc
            | arr l => try simp only [] at h
                       exact ihF rest acc out hszrest h hacc
          · rw [if_neg hitems] at h
            by_cases hprops : k = "properties"
            · rw [if_pos hprops] at h
              cases v with
              | obj props =>
                try simp only [] at h
                rw [goBind_eq_ok] at h
                obtain ⟨pr, hpr, h2⟩ := h
                have hszp : sizeOf props ≤ n := by simp at hsz; omega
                have hprS := ihP props pr hszp hpr
                exact ihF rest _ out hszrest h2
                  (insertGo_sanitized acc "properties" _ hacc (entryOK_properties hprS))
              | null => try simp only [] at h
                        exact ihF rest acc out hszrest h hacc
              | boolean b => try simp only [] at h
                             exact ihF rest acc out hszrest h hacc
              | num m => try simp only [] at h
                         exact ihF rest acc out hszrest h hacc
              | str s => try simp only [] at h
                         exact ihF rest acc out hszrest h hacc
              | arr l => try simp only [] at h
                         exact ihF rest acc out hszrest h hacc
            · rw [if_neg hprops] at h
              by_cases htype : k = "type"
              · rw [if_pos htype] at h
                cases v with
                | arr typeList =>
                  cases typeList with
                  | nil => simp at h
                  | cons t0 tl1 =>
                    cases tl1 with
                    | nil => simp at h
                    | cons t1 tl2 =>
                      cases tl2 with
                      | cons t2 tl3 => simp at h
                      | nil =>
                        try simp only [] at h
                        by_cases ht1 : t1 = JValue.str "null"
                        · rw [if_pos ht1] at h
                          by_cases ht0 : t0 = JValue.str "null"
                          · rw [if_pos ht0] at h; simp at h
                          · rw [if_neg ht0] at h
                            cases t0 with
                            | null => simp at h
                            | obj m =>
                              try simp only [] at h
                              rw [goBind_eq_ok] at h
                              obtain ⟨res, hres, h2⟩ := h
                              have hszm : sizeOf m ≤ n := by simp at hsz; omega
                              have hresS := ihF m .nil res hszm hres sanitizedObj_nil
                              exact ihF rest _ out hszrest h2
                                (insertGo_sanitized _ "nullable" _
                                  (mergeObjInto_sanitized res acc hacc hresS) entryOK_nullable)
                            | boolean b =>
                              try simp only [] at h
                              exact ihF rest _ out hszrest h
                                (insertGo_sanitized _ "nullable" _
                                  (insertGo_sanitized acc "type" _ hacc (entryOK_type_str _))
                                  entryOK_nullable)
                            | num m =>
                              try simp only [] at h
                              exact ihF rest _ out hszrest h
                                (insertGo_sanitized _ "nullable" _
                                  (insertGo_sanitized acc "type" _ hacc (entryOK_type_str _))
                                  entryOK_nullable)
                            | str s =>
                              try simp only [] at h
                              exact ihF rest _ out hszrest h
                                (insertGo_sanitized _ "nullable" _
                                  (insertGo_sanitized acc "type" _ hacc (entryOK_type_str _))
                                  entryOK_nullable)
                            | arr l =>
                              try simp only [] at h
                              exact ihF rest _ out hszrest h
                                (insertGo_sanitized _ "nullable" _
                                  (insertGo_sanitized acc "type" _ hacc (entryOK_type_str _))
                                  entryOK_nullable)
                        · rw [if_neg ht1] at h
                          by_cases ht0 : t0 = JValue.str "null"
                          · rw [if_pos ht0] at h
                            cases t1 with
                            | null => simp at h
                            | obj m =>
                              try simp only [] at h
                              rw [goBind_eq_ok] at h
                              obtain ⟨res, hres, h2⟩ := h
                              have hszm : sizeOf m ≤ n := by simp at hsz; omega
                              have hresS := ihF m .nil res hszm hres sanitizedObj_nil
                              exact ihF rest _ out hszrest h2
                                (insertGo_sanitized _ "nullable" _
                                  (mergeObjInto_sanitized res acc hacc hresS) entryOK_nullable)
                            | boolean b =>
                              try simp only [] at h
                              exact ihF rest _ out hszrest h
                                (insertGo_sanitized _ "nullable" _
                                  (insertGo_sanitized acc "type" _ hacc (entryOK_type_str _))
                                  entryOK_nullable)
                            | num m =>
                              try simp only [] at h
                              exact ihF rest _ out hszrest h
                                (insertGo_sanitized _ "nullable" _
                                  (insertGo_sanitized acc "type" _ hacc (entryOK_type_str _))
                                  entryOK_nullable)
                            | str s =>
                              try simp only [] at h
                              exact ihF rest _ out hszrest h
                                (insertGo_sanitized _ "nullable" _
                                  (insertGo_sanitized acc "type" _ hacc (entryOK_type_str _))
                                  entryOK_nullable)
                            | arr l =>
                              try simp only [] at h
                              exact ihF rest _ out hszrest h
                                (insertGo_sanitized _ "nullable" _
                                  (insertGo_sanitized acc "type" _ hacc (entryOK_type_str _))
                                  entryOK_nullable)
                          · rw [if_neg ht0] at h; simp at h
                | null =>
                  try simp only [] at h
                  exact ihF rest _ out hszrest h (insertGo_sanitized acc "type" _ hacc (entryOK_type_str _))
                | boolean b =>
                  try simp only [] at h
                  exact ihF rest _ out hszrest h (insertGo_sanitized acc "type" _ hacc (entryOK_type_str _))
                | num m =>
                  try simp only [] at h
                  exact ihF rest _ out hszrest h (insertGo_sanitized acc "type" _ hacc (entryOK_type_str _))
                | str s =>
                  try simp only [] at h
                  exact ihF rest _ out hszrest h (insertGo_sanitized acc "type" _ hacc (entryOK_type_str _))
                | obj o =>
                  try simp only [] at h
                  exact ihF rest _ out hszrest h (insertGo_sanitized acc "type" _ hacc (entryOK_type_str _))
              · rw [if_neg htype] at h
                by_cases hallof : k = "allOf"
                · rw [if_pos hallof] at h
                  cases v with
                  | arr l =>
                    try simp only [] at h
                    by_cases hlen : l.length > 1
                    · rw [if_pos hlen] at h; simp at h
                    · rw [if_neg hlen] at h
                      cases l with
                      | nil => simp at h
                      | cons x xrest =>
                        try simp only [] at h
                        cases x with
                        | obj sub =>
                          try simp only [] at h
                          have hszsub : sizeOf sub ≤ n := by simp at hsz; omega
                          exact ihF sub .nil out hszsub h sanitizedObj_nil
                        | null => try simp only [] at h
                                  exact ihF rest acc out hszrest h hacc
                        | boolean b => try simp only [] at h
                                       exact ihF rest acc out hszrest h hacc
                        | num m => try simp only [] at h
                                   exact ihF rest acc out hszrest h hacc
                        | str s => try simp only [] at h
                                   exact ihF rest acc out hszrest h hacc
                        | arr l2 => try simp only [] at h
                                    exact ihF rest acc out hszrest h hacc
                  | null => try simp only [] at h
                            exact ihF rest acc out hszrest h hacc
                  | boolean b => try simp only [] at h
                                 exact ihF rest acc out hszrest h hacc
                  | num m => try simp only [] at h
                             exact ihF rest acc out hszrest h hacc
                  | str s => try simp only [] at h
                             exact ihF rest acc out hszrest h hacc
                  | obj o => try simp only [] at h
                             exact ihF rest acc out hszrest h hacc
                · rw [if_neg hallof] at h
                  by_cases hanyof : k = "anyOf"
                  · rw [if_pos hanyof] at h
                    cases v with
                    | arr l =>
                      try simp only [] at h
                      rw [goBind_eq_ok] at h
                      obtain ⟨p, hp, h2⟩ := h
                      obtain ⟨results, nb⟩ := p
                      have hszl : sizeOf l ≤ n := by simp at hsz; omega
                      have hresS := ihA l results nb hszl hp
                      have hacc1 : sanitizedObj
                          (if nb then insertGo acc "nullable" (.boolean true) else acc) = true := by
                        cases nb with
                        | true => exact insertGo_sanitized acc "nullable" _ hacc entryOK_nullable
                        | false => exact hacc
                      exact ihF rest _ out hszrest h2
                        (insertGo_sanitized _ "anyOf" _ hacc1 (entryOK_anyOf hresS))
                    | null => try simp only [] at h
                              exact ihF rest acc out hszrest h hacc
                    | boolean b => try simp only [] at h
                                   exact ihF rest acc out hszrest h hacc
                    | num m => try simp only [] at h
                               exact ihF rest acc out hszrest h hacc
                    | str s => try simp only [] at h
                               exact ihF rest acc out hszrest h hacc
                    | obj o => try simp only [] at h
                               exact ihF rest acc out hszrest h hacc
                  · rw [if_neg hanyof] at h
                    by_cases hmem : k ∈ allowedSchemaFieldsSet
                    · rw [if_pos hmem] at h
                      exact ihF rest _ out hszrest h
                        (insertGo_sanitized acc k v hacc
                          (entryOK_other v hitems hprops hanyof hmem))
                    · rw [if_neg hmem] at h
                      exact ihF rest acc out hszrest h hacc
    · intro props out hsz h
      cases props with
      | nil =>
        simp only [fmtExtProps] at h
        cases h
        rfl
      | cons pk pv rest =>
        have hszrest : sizeOf rest ≤ n := by simp at hsz; omega
        cases pv with
        | obj sub =>
          simp only [fmtExtProps] at h
          rw [goBind_eq_ok] at h
          obtain ⟨r, hr, h2⟩ := h
          rw [goBind_eq_ok] at h2
          obtain ⟨rs, hrs, h3⟩ := h2
          simp only [pure, Except.pure, Except.ok.injEq] at h3
          subst h3
          have hszsub : sizeOf sub ≤ n := by simp at hsz; omega
          have h1 := ihF sub .nil r hszsub hr sanitizedObj_nil
          have h2 := ihP rest rs hszrest hrs
          simp [sanitizedProps, h1, h2]
        | null => simp only [fmtExtProps] at h; exact ihP rest out hszrest h
        | boolean b => simp only [fmtExtProps] at h; exact ihP rest out hszrest h
        | num m => simp only [fmtExtProps] at h; exact ihP rest out hszrest h
        | str s => simp only [fmtExtProps] at h; exact ihP rest out hszrest h
        | arr l => simp only [fmtExtProps] at h; exact ihP rest out hszrest h
    · intro l res nb hsz h
      cases l with
      | nil =>
        simp only [fmtExtAnyOf] at h
        cases h
        rfl
      | cons el rest =>
        have hszrest : sizeOf rest ≤ n := by simp at hsz; omega
        cases el with
        | obj sub =>
          simp only [fmtExtAnyOf] at h
          by_cases hnull : lookupKey sub "type" = some (.str "null")
          · rw [if_pos hnull] at h
            rw [goBind_eq_ok] at h
            obtain ⟨p, hp, h2⟩ := h
            obtain ⟨rs, nb'⟩ := p
            simp only [pure, Except.pure, Except.ok.injEq, Prod.mk.injEq] at h2
            obtain ⟨h2a, _⟩ := h2
            subst h2a
            exact ihA rest rs nb' hszrest hp
          · rw [if_neg hnull] at h
            rw [goBind_eq_ok] at h
            obtain ⟨r, hr, h2⟩ := h
            rw [goBind_eq_ok] at h2
            obtain ⟨p, hp, h3⟩ := h2
            obtain ⟨rs, nb'⟩ := p
            simp only [pure, Except.pure, Except.ok.injEq, Prod.mk.injEq] at h3
            obtain ⟨h3a, _⟩ := h3
            subst h3a
            have hszsub : sizeOf sub ≤ n := by simp at hsz; omega
            have h1 := ihF sub .nil r hszsub hr sanitizedObj_nil
            have h2 := ihA rest rs nb' hszrest hp
            simp [sanitizedArr, h1, h2]
        | null => simp only [fmtExtAnyOf] at h; exact ihA rest res nb hszrest h
        | boolean b => simp only [fmtExtAnyOf] at h; exact ihA rest res nb hszrest h
        | num m => simp only [fmtExtAnyOf] at h; exact ihA rest res nb hszrest h
        | str s => simp only [fmtExtAnyOf] at h; exact ihA rest res nb hszrest h
        | arr l2 => simp only [fmtExtAnyOf] at h; exact ihA rest res nb hszrest h

/-- A well-formed walked node never has `$ref` or `$defs` among its own
keys (they are not allow-listed). -/
theorem sanitized_no_ref_defs : ∀ m : JObj, sanitizedObj m = true →
    "$ref" ∉ JObj.keys m ∧ "$defs" ∉ JObj.keys m
  | .nil, _ => by simp [JObj.keys]
  | .cons k v rest, h => by
    simp only [sanitizedObj, Bool.and_eq_true] at h
    have hk : k ∈ allowedSchemaFieldsSet := by
      have h1 := h.1
      unfold entryOK at h1
      simp only [Bool.and_eq_true, decide_eq_true_eq] at h1
      exact h1.1
    have hrest := sanitized_no_ref_defs rest h.2
    have hkr : k ≠ "$ref" := by
      intro hc; rw [hc] at hk; simp [allowedSchemaFieldsSet] at hk
    have hkd : k ≠ "$defs" := by
      intro hc; rw [hc] at hk; simp [allowedSchemaFieldsSet] at hk
    constructor
    · simp only [JObj.keys, List.mem_cons, not_or]
      exact ⟨fun hc => hkr hc.symm, hrest.1⟩
    · simp only [JObj.keys, List.mem_cons, not_or]
      exact ⟨fun hc => hkd hc.symm, hrest.2⟩

/-- Appending nothing. -/
theorem JObj.append_nil : ∀ o : JObj, JObj.append o .nil = o
  | .nil => rfl
  | .cons k v rest => by simp [JObj.append, JObj.append_nil rest]

/-- Keys of an append. -/
theorem JObj.keys_append : ∀ a b : JObj,
    JObj.keys (JObj.append a b) = JObj.keys a ++ JObj.keys b
  | .nil, b => rfl
  | .cons k v rest, b => by simp [JObj.append, JObj.keys, JObj.keys_append rest b]

/-- Inserting a fresh key appends the entry. -/
theorem insertGo_fresh : ∀ (acc : JObj) (k : String) (v : JValue),
    k ∉ JObj.keys acc → insertGo acc k v = JObj.append acc (.cons k v .nil)
  | .nil, k, v, _ => rfl
  | .cons k' v' rest, k, v, h => by
    have hne : k' ≠ k := by
      intro hc; exact h (by simp [JObj.keys, hc])
    have hrest : k ∉ JObj.keys rest := by
      intro hc; exact h (by simp [JObj.keys, hc])
    simp [insertGo, hne, JObj.append, insertGo_fresh rest k v hrest]

/-- Lookup of the just-inserted key. -/
theorem lookupKey_insert_self : ∀ (acc : JObj) (k : String) (v : JValue),
    lookupKey (insertGo acc k v) k = some v
  | .nil, k, v => by simp [insertGo, lookupKey]
  | .cons k' v' rest, k, v => by
    by_cases h : k' = k
    · simp [insertGo, h, lookupKey]
    · simp [insertGo, h, lookupKey, lookupKey_insert_self rest k v]

/-- Lookup of a different key is unchanged by an insert. -/
theorem lookupKey_insert_ne : ∀ (acc : JObj) (k k' : String) (v : JValue),
    k' ≠ k → lookupKey (insertGo acc k v) k' = lookupKey acc k'
  | .nil, k, k', v, h => by
    have hne : ¬ k = k' := fun hc => h hc.symm
    simp [insertGo, lookupKey, hne]
  | .cons k0 v0 rest, k, k', v, h => by
    by_cases h0 : k0 = k
    · subst h0
      have hne : ¬ k0 = k' := fun hc => h hc.symm
      simp [insertGo, lookupKey, hne]
    · simp only [insertGo, if_neg h0, lookupKey]
      by_cases h1 : k0 = k'
      · simp [h1]
      · simp [h1, lookupKey_insert_ne rest k k' v h]

/-- The keys after an insert: unchanged when the key is present, extended
otherwise. -/
theorem keys_insertGo_fresh : ∀ (acc : JObj) (k : String) (v : JValue),
    k ∉ JObj.keys acc → JObj.keys (insertGo acc k v) = JObj.keys acc ++ [k]
  | .nil, k, v, _ => rfl
  | .cons k' v' rest, k, v, h => by
    have hne : k' ≠ k := by
      intro hc; exact h (by simp [JObj.keys, hc])
    have hrest : k ∉ JObj.keys rest := by
      intro hc; exact h (by simp [JObj.keys, hc])
    simp [insertGo, hne, JObj.keys, keys_insertGo_fresh rest k v hrest]

/-- Splicing a single entry: appending `[(k, v)]` then `r` is appending
`(k, v) :: r`. -/
theorem JObj.append_cons_mid : ∀ (a : JObj) (k : String) (v : JValue) (r : JObj),
    JObj.append (JObj.append a (.cons k v .nil)) r = JObj.append a (.cons k v r)
  | .nil, _, _, _ => rfl
  | .cons k0 v0 rest, k, v, r => by
    simp [JObj.append, JObj.append_cons_mid rest k v r]

/-- Every JSON value has at least one node. -/
theorem jsize_pos : ∀ v : JValue, 1 ≤ jsize v := by
  intro v; cases v <;> simp [jsize]

/-- Every array has positive node count. -/
theorem jsizeArr_pos : ∀ l : JArr, 1 ≤ jsizeArr l := by
  intro l
  cases l with
  | nil => simp [jsizeArr]
  | cons x xs => simp [jsizeArr]; omega

/-- Every field list has positive node count. -/
theorem jsizeObj_pos : ∀ f : JObj, 1 ≤ jsizeObj f := by
  intro f
  cases f with
  | nil => simp [jsizeObj]
  | cons k v rest => simp [jsizeObj]; omega

/-- Bind on a successful Go result just applies the continuation. -/
theorem goBind_ok {α β : Type} (a : α) (f : α → GoResult β) :
    (Except.ok a : GoResult α) >>= f = f a := rfl

/-- With enough fuel, skip-key inference is the identity on the visited set
and returns no keys when the walked value contains no `$ref` at all
(extproc `inferSkipKeys`). -/
theorem inferSkip_noRef : ∀ fuel : Nat,
    (∀ (v : JValue) (fs : JObj) (p : List String), jsize v ≤ fuel →
      containsKeyDeep "$ref" v = false →
      inferSkipKeysExt fuel v fs p = .ok ([], p)) ∧
    (∀ (fields fs : JObj) (p : List String), jsizeObj fields ≤ fuel →
      containsKeyDeepObj "$ref" fields = false →
      inferSkipFieldsExt fuel fields fs p = .ok ([], p)) ∧
    (∀ (l : JArr) (fs : JObj) (p : List String), jsizeArr l ≤ fuel →
      containsKeyDeepArr "$ref" l = false →
      inferSkipArrExt fuel l fs p = .ok ([], p)) := by
  intro fuel
  induction fuel with
  | zero =>
    refine ⟨?_, ?_, ?_⟩
    · intro v _ _ hsz _; exfalso; have := jsize_pos v; omega
    · intro fields _ _ hsz _; exfalso; have := jsizeObj_pos fields; omega
    · intro l _ _ hsz _; exfalso; have := jsizeArr_pos l; omega
  | succ fuel ih =>
    obtain ⟨ihV, ihO, ihA⟩ := ih
    refine ⟨?_, ?_, ?_⟩
    · intro v fs p hsz hnr
      cases v with
      | obj dict =>
        simp only [inferSkipKeysExt]
        exact ihO dict fs p (by simp [jsize] at hsz; omega) (by simpa [containsKeyDeep] using hnr)
      | arr l =>
        simp only [inferSkipKeysExt]
        exact ihA l fs p (by simp [jsize] at hsz; omega) (by simpa [containsKeyDeep] using hnr)
      | null => simp [inferSkipKeysExt]
      | boolean b => simp [inferSkipKeysExt]
      | num m => simp [inferSkipKeysExt]
      | str s => simp [inferSkipKeysExt]
    · intro fields fs p hsz hnr
      cases fields with
      | nil => simp [inferSkipFieldsExt]
      | cons k v rest =>
        simp only [containsKeyDeepObj, Bool.or_eq_false_iff] at hnr
        obtain ⟨⟨hk, hv⟩, hrest⟩ := hnr
        have hkne : k ≠ "$ref" := by simpa using hk
        have hszv : jsize v ≤ fuel := by
          simp only [jsizeObj] at hsz
          have := jsizeObj_pos rest; omega
        have hszrest : jsizeObj rest ≤ fuel := by
          simp only [jsizeObj] at hsz
          have := jsize_pos v; omega
        simp only [inferSkipFieldsExt, if_neg hkne]
        cases v with
        | obj d =>
          simp only [goBind_ok, ihV (.obj d) fs p hszv hv,
            ihO rest fs p hszrest hrest]
          rfl
        | arr el =>
          simp only [goBind_ok, ihV (.arr el) fs p hszv hv,
            ihO rest fs p hszrest hrest]
          rfl
        | null => exact ihO rest fs p hszrest hrest
        | boolean b => exact ihO rest fs p hszrest hrest
        | num m => exact ihO rest fs p hszrest hrest
        | str s => exact ihO rest fs p hszrest hrest
    · intro l fs p hsz hnr
      cases l with
      | nil => simp [inferSkipArrExt]
      | cons el rest =>
        simp only [containsKeyDeepArr, Bool.or_eq_false_iff] at hnr
        have hszel : jsize el ≤ fuel := by
          simp only [jsizeArr] at hsz
          have := jsizeArr_pos rest; omega
        have hszrest : jsizeArr rest ≤ fuel := by
          simp only [jsizeArr] at hsz
          have := jsize_pos el; omega
        simp only [inferSkipArrExt, goBind_ok, ihV el fs p hszel hnr.1,
          ihA rest fs p hszrest hnr.2]
        rfl

/-- With enough fuel, the extproc dereference helper is the identity on any
well-formed value containing no `$ref` key anywhere: every field is copied
back unchanged (the dictionary loop rebuilds `acc` by appending). -/
theorem deref_noRef : ∀ fuel : Nat,
    (∀ (v : JValue) (fs : JObj) (sk p : List String), jsize v ≤ fuel →
      containsKeyDeep "$ref" v = false → wfDeep v = true →
      derefHelperExt fuel v fs sk p = .ok v) ∧
    (∀ (fields acc fs : JObj) (sk p : List String), jsizeObj fields ≤ fuel →
      containsKeyDeepObj "$ref" fields = false → wfDeepObj fields = true →
      (JObj.keys fields).Nodup →
      (∀ k ∈ JObj.keys fields, k ∉ JObj.keys acc) →
      derefFieldsExt fuel fields acc fs sk p =
        .ok (.obj (JObj.append acc fields))) ∧
    (∀ (l : JArr) (fs : JObj) (sk p : List String), jsizeArr l ≤ fuel →
      containsKeyDeepArr "$ref" l = false → wfDeepArr l = true →
      derefArrExt fuel l fs sk p = .ok l) := by
  intro fuel
  induction fuel with
  | zero =>
    refine ⟨?_, ?_, ?_⟩
    · intro v _ _ _ hsz _ _; exfalso; have := jsize_pos v; omega
    · intro fields _ _ _ _ hsz _ _ _ _; exfalso; have := jsizeObj_pos fields; omega
    · intro l _ _ _ hsz _ _; exfalso; have := jsizeArr_pos l; omega
  | succ fuel ih =>
    obtain ⟨ihV, ihO, ihA⟩ := ih
    refine ⟨?_, ?_, ?_⟩
    · intro v fs sk p hsz hnr hwf
      cases v with
      | obj dict =>
        simp only [derefHelperExt]
        simp only [wfDeep, Bool.and_eq_true, decide_eq_true_eq] at hwf
        have := ihO dict .nil fs sk p (by simp [jsize] at hsz; omega)
          (by simpa [containsKeyDeep] using hnr) hwf.2 hwf.1
          (by intro k _ hc; simp [JObj.keys] at hc)
        exact this
      | arr l =>
        simp only [derefHelperExt]
        simp only [goBind_ok, ihA l fs sk p (by simp [jsize] at hsz; omega)
          (by simpa [containsKeyDeep] using hnr) (by simpa [wfDeep] using hwf)]
        rfl
      | null => simp [derefHelperExt]
      | boolean b => simp [derefHelperExt]
      | num m => simp [derefHelperExt]
      | str s => simp [derefHelperExt]
    · intro fields acc fs sk p hsz hnr hwf hnd hfresh
      cases fields with
      | nil => simp [derefFieldsExt, JObj.append_nil]
      | cons k v rest =>
        simp only [containsKeyDeepObj, Bool.or_eq_false_iff] at hnr
        obtain ⟨⟨hk, hv⟩, hrest⟩ := hnr
        have hkne : k ≠ "$ref" := by simpa using hk
        simp only [wfDeepObj, Bool.and_eq_true] at hwf
        obtain ⟨hwfv, hwfrest⟩ := hwf
        simp only [JObj.keys, List.nodup_cons] at hnd
        obtain ⟨hknotin, hndrest⟩ := hnd
        have hszv : jsize v ≤ fuel := by
          simp only [jsizeObj] at hsz
          have := jsizeObj_pos rest; omega
        have hszrest : jsizeObj rest ≤ fuel := by
          simp only [jsizeObj] at hsz
          have := jsize_pos v; omega
        have hkacc : k ∉ JObj.keys acc := hfresh k (by simp [JObj.keys])
        have hfreshrest : ∀ k' ∈ JObj.keys rest,
            k' ∉ JObj.keys (insertGo acc k v) := by
          intro k' hk' hc
          rw [keys_insertGo_fresh acc k v hkacc] at hc
          rcases List.mem_append.mp hc with hca | hcb
          · exact hfresh k' (by simp [JObj.keys, hk']) hca
          · simp at hcb; rw [hcb] at hk'; exact hknotin hk'
        have hfin : derefFieldsExt fuel rest (insertGo acc k v) fs sk p =
            .ok (.obj (JObj.append acc (.cons k v rest))) := by
          rw [ihO rest (insertGo acc k v) fs sk p hszrest hrest hwfrest hndrest
              hfreshrest,
            insertGo_fresh acc k v hkacc, JObj.append_cons_mid]
        by_cases hsk : k ∈ sk
        · simp only [derefFieldsExt, if_pos hsk]
          exact hfin
        · simp only [derefFieldsExt, if_neg hsk, if_neg hkne]
          cases v with
          | obj d =>
            simp only [goBind_ok, ihV (.obj d) fs sk p hszv hv hwfv]
            exact hfin
          | arr el =>
            simp only [goBind_ok, ihV (.arr el) fs sk p hszv hv hwfv]
            exact hfin
          | null => exact hfin
          | boolean b => exact hfin
          | num m => exact hfin
          | str s => exact hfin
    · intro l fs sk p hsz hnr hwf
      cases l with
      | nil => simp [derefArrExt]
      | cons el rest =>
        simp only [containsKeyDeepArr, Bool.or_eq_false_iff] at hnr
        simp only [wfDeepArr, Bool.and_eq_true] at hwf
        have hszel : jsize el ≤ fuel := by
          simp only [jsizeArr] at hsz
          have := jsizeArr_pos rest; omega
        have hszrest : jsizeArr rest ≤ fuel := by
          simp only [jsizeArr] at hsz
          have := jsize_pos el; omega
        simp only [derefArrExt, goBind_ok, ihV el fs sk p hszel hnr.1 hwf.1,
          ihA rest fs sk p hszrest hnr.2 hwf.2]
        rfl

/-- The fuel budget covers the whole document. -/
theorem derefFuel_ge (s : JObj) : jsize (.obj s) ≤ derefFuel s := by
  simp only [jsize, derefFuel]
  have h : (jsizeObj s + 2) * (jsizeObj s + 2) =
      jsizeObj s * jsizeObj s + 4 * jsizeObj s + 4 := by ring
  omega

/-- Pass 1 of the extproc sanitizer is the identity on well-formed schemas
with no `$ref` anywhere. -/
theorem dereferenceRefs_noRef (s : JObj)
    (hnr : containsKeyDeepObj "$ref" s = false)
    (hwf : wfDeep (.obj s) = true) :
    dereferenceRefs s = .ok (.obj s) := by
  unfold dereferenceRefs
  rw [(inferSkip_noRef (derefFuel s)).1 (.obj s) s [] (derefFuel_ge s)
    (by simpa [containsKeyDeep] using hnr)]
  exact (deref_noRef (derefFuel s)).1 (.obj s) s [] [] (derefFuel_ge s)
    (by simpa [containsKeyDeep] using hnr) hwf

/-- Keys after an insert come from the old keys plus the inserted key. -/
theorem keys_insertGo_subset : ∀ (acc : JObj) (k : String) (v : JValue),
    JObj.keys (insertGo acc k v) ⊆ JObj.keys acc ++ [k]
  | .nil, k, v => by simp [insertGo, JObj.keys]
  | .cons k' v' rest, k, v => by
    by_cases h : k' = k
    · subst h
      simp only [insertGo, if_pos rfl, JObj.keys]
      intro x hx
      simp only [List.mem_cons] at hx
      rcases hx with hx | hx
      · simp [hx]
      · simp [hx]
    · simp only [insertGo, if_neg h, JObj.keys]
      intro x hx
      simp only [List.mem_cons] at hx
      rcases hx with hx | hx
      · simp [hx]
      · have := keys_insertGo_subset rest k v hx
        simp only [List.mem_cons, List.mem_append, List.mem_singleton] at this ⊢
        tauto

/-- Inserting preserves distinctness of keys. -/
theorem keys_insertGo_nodup : ∀ (acc : JObj) (k : String) (v : JValue),
    (JObj.keys acc).Nodup → (JObj.keys (insertGo acc k v)).Nodup
  | .nil, k, v, _ => by simp [insertGo, JObj.keys]
  | .cons k' v' rest, k, v, h => by
    simp only [JObj.keys, List.nodup_cons] at h
    by_cases hk : k' = k
    · subst hk
      simp only [insertGo, if_pos rfl, JObj.keys, List.nodup_cons]
      exact h
    · simp only [insertGo, if_neg hk, JObj.keys, List.nodup_cons]
      refine ⟨?_, keys_insertGo_nodup rest k v h.2⟩
      intro hc
      have := keys_insertGo_subset rest k v hc
      simp only [List.mem_append, List.mem_singleton] at this
      rcases this with h1 | h1
      · exact h.1 h1
      · exact hk h1

/-- A key absent from an object has no binding. -/
theorem lookupKey_eq_none : ∀ (m : JObj) (k : String),
    k ∉ JObj.keys m → lookupKey m k = none
  | .nil, _, _ => rfl
  | .cons k' v' rest, k, h => by
    have hne : k' ≠ k := by
      intro hc; exact h (by simp [JObj.keys, hc])
    have hrest : k ∉ JObj.keys rest := by
      intro hc; exact h (by simp [JObj.keys, hc])
    simp [lookupKey, hne, lookupKey_eq_none rest k hrest]

/-- The extproc formatter is the identity (appending to the accumulator) on
any node of fixpoint shape: processing `m` from accumulator `acc` with
disjoint, distinct keys reproduces every entry verbatim. -/
theorem fmtExt_g_fix : ∀ n : Nat,
    (∀ m acc, sizeOf m ≤ n → gObjE m = true → (JObj.keys m).Nodup →
      (∀ k ∈ JObj.keys m, k ∉ JObj.keys acc) →
      fmtExtFields m acc = .ok (JObj.append acc m)) ∧
    (∀ p, sizeOf p ≤ n → gProps p = true → fmtExtProps p = .ok p) ∧
    (∀ l, sizeOf l ≤ n → gArr l = true → fmtExtAnyOf l = .ok (l, false)) := by
  intro n
  induction n with
  | zero =>
    refine ⟨?_, ?_, ?_⟩
    · intro m _ hsz _ _ _; exfalso; cases m <;> simp at hsz
    · intro p hsz _; exfalso; cases p <;> simp at hsz
    · intro l hsz _; exfalso; cases l <;> simp at hsz
  | succ n ih =>
    obtain ⟨ihF, ihP, ihAny⟩ := ih
    refine ⟨?_, ?_, ?_⟩
    · intro m acc hsz hg hnd hfresh
      cases m with
      | nil => simp [fmtExtFields, JObj.append_nil]
      | cons k v rest =>
        simp only [gObjE, Bool.and_eq_true] at hg
        obtain ⟨hge, hgrest⟩ := hg
        unfold gEntryOK at hge
        simp only [Bool.and_eq_true, Bool.not_eq_true', decide_eq_true_eq,
          decide_eq_false_iff_not] at hge
        obtain ⟨⟨hallow, hnallof⟩, hif⟩ := hge
        have hdefs : k ≠ "$defs" := by
          intro hc; subst hc; simp [allowedSchemaFieldsSet] at hallow
        simp only [JObj.keys, List.nodup_cons] at hnd
        obtain ⟨hknotin, hndrest⟩ := hnd
        have hszrest : sizeOf rest ≤ n := by simp at hsz; omega
        have hkacc : k ∉ JObj.keys acc := hfresh k (by simp [JObj.keys])
        have hfreshrest : ∀ k' ∈ JObj.keys rest,
            k' ∉ JObj.keys (insertGo acc k v) := by
          intro k' hk' hc
          rw [keys_insertGo_fresh acc k v hkacc] at hc
          rcases List.mem_append.mp hc with hca | hcb
          · exact hfresh k' (by simp [JObj.keys, hk']) hca
          · simp at hcb; rw [hcb] at hk'; exact hknotin hk'
        have hfin : fmtExtFields rest (insertGo acc k v) =
            .ok (JObj.append acc (.cons k v rest)) := by
          rw [ihF rest (insertGo acc k v) hszrest hgrest hndrest hfreshrest,
            insertGo_fresh acc k v hkacc, JObj.append_cons_mid]
        unfold fmtExtFields
        rw [if_neg hdefs]
        by_cases hki : k = "items"
        · subst hki
          rw [if_pos rfl]
          rw [if_pos rfl] at hif
          cases v with
          | obj o =>
            simp only [Bool.and_eq_true, decide_eq_true_eq] at hif
            have hszo : sizeOf o ≤ n := by simp at hsz; omega
            have h1 : fmtExtFields o .nil = .ok o :=
              ihF o .nil hszo hif.1 hif.2
                (by intro a _ hc; simp [JObj.keys] at hc)
            simp only [h1, goBind_ok]
            exact hfin
          | null => simp at hif
          | boolean b => simp at hif
          | num q => simp at hif
          | str s => simp at hif
          | arr l => simp at hif
        · rw [if_neg hki]
          rw [if_neg hki] at hif
          by_cases hkp : k = "properties"
          · subst hkp
            rw [if_pos rfl]
            rw [if_pos rfl] at hif
            cases v with
            | obj p =>
              simp only [Bool.and_eq_true, decide_eq_true_eq] at hif
              have hszp : sizeOf p ≤ n := by simp at hsz; omega
              have h1 : fmtExtProps p = .ok p := ihP p hszp hif.1
              simp only [h1, goBind_ok]
              exact hfin
            | null => simp at hif
            | boolean b => simp at hif
            | num q => simp at hif
            | str s => simp at hif
            | arr l => simp at hif
          · rw [if_neg hkp]
            rw [if_neg hkp] at hif
            by_cases hkt : k = "type"
            · subst hkt
              rw [if_pos rfl]
              rw [if_pos rfl] at hif
              cases v with
              | str s => exact hfin
              | null => simp at hif
              | boolean b => simp at hif
              | num q => simp at hif
              | obj o => simp at hif
              | arr l => simp at hif
            · rw [if_neg hkt]
              rw [if_neg hkt] at hif
              rw [if_neg hnallof]
              by_cases hka : k = "anyOf"
              · subst hka
                rw [if_pos rfl]
                rw [if_pos rfl] at hif
                cases v with
                | arr l =>
                  have hszl : sizeOf l ≤ n := by simp at hsz; omega
                  have h1 : fmtExtAnyOf l = .ok (l, false) := ihAny l hszl hif
                  simp only [h1, goBind_ok]
                  exact hfin
                | null => simp at hif
                | boolean b => simp at hif
                | num q => simp at hif
                | str s => simp at hif
                | obj o => simp at hif
              · rw [if_neg hka]
                rw [if_pos hallow]
                exact hfin
    · intro p hszp hg
      cases p with
      | nil => rfl
      | cons pk pv rest =>
        unfold gProps at hg
        simp only [Bool.and_eq_true] at hg
        obtain ⟨⟨_, hpv⟩, hgrest⟩ := hg
        have hszrest : sizeOf rest ≤ n := by simp at hszp; omega
        cases pv with
        | obj o =>
          simp only [Bool.and_eq_true, decide_eq_true_eq] at hpv
          have hszo : sizeOf o ≤ n := by simp at hszp; omega
          have h1 : fmtExtFields o .nil = .ok o :=
            ihF o .nil hszo hpv.1 hpv.2
              (by intro a _ hc; simp [JObj.keys] at hc)
          have h2 : fmtExtProps rest = .ok rest := ihP rest hszrest hgrest
          simp only [fmtExtProps, h1, h2, goBind_ok]
          rfl
        | null => simp at hpv
        | boolean b => simp at hpv
        | num q => simp at hpv
        | str s => simp at hpv
        | arr l => simp at hpv
    · intro l hszl hg
      cases l with
      | nil => rfl
      | cons el rest =>
        unfold gArr at hg
        simp only [Bool.and_eq_true] at hg
        obtain ⟨hel, hgrest⟩ := hg
        have hszrest : sizeOf rest ≤ n := by simp at hszl; omega
        cases el with
        | obj o =>
          simp only [Bool.and_eq_true, Bool.not_eq_true', decide_eq_true_eq,
            decide_eq_false_iff_not] at hel
          obtain ⟨⟨hgo, hnodup⟩, htype⟩ := hel
          have hszo : sizeOf o ≤ n := by simp at hszl; omega
          have h1 : fmtExtFields o .nil = .ok o :=
            ihF o .nil hszo hgo hnodup
              (by intro a _ hc; simp [JObj.keys] at hc)
          have h2 : fmtExtAnyOf rest = .ok (rest, false) := ihAny rest hszrest hgrest
          simp only [fmtExtAnyOf, if_neg htype, h1, h2, goBind_ok]
          rfl
        | null => simp at hel
        | boolean b => simp at hel
        | num q => simp at hel
        | str s => simp at hel
        | arr el2 => simp at hel

mutual

/-- A tame value contains no `$ref` key anywhere. -/
theorem tameV_noRef : ∀ v : JValue, tameV v = true →
    containsKeyDeep "$ref" v = false
  | .null, _ => rfl
  | .boolean _, _ => rfl
  | .num _, _ => rfl
  | .str _, _ => rfl
  | .arr l, h => by
    simpa [containsKeyDeep] using tameArr_noRef l (by simpa [tameV] using h)
  | .obj f, h => by
    simpa [containsKeyDeep] using tameObj_noRef f (by simpa [tameV] using h)

/-- A tame array contains no `$ref` key anywhere. -/
theorem tameArr_noRef : ∀ l : JArr, tameArr l = true →
    containsKeyDeepArr "$ref" l = false
  | .nil, _ => rfl
  | .cons x xs, h => by
    simp only [tameArr, Bool.and_eq_true] at h
    simp [containsKeyDeepArr, tameV_noRef x h.1, tameArr_noRef xs h.2]

/-- A tame object contains no `$ref` key anywhere. -/
theorem tameObj_noRef : ∀ f : JObj, tameObj f = true →
    containsKeyDeepObj "$ref" f = false
  | .nil, _ => rfl
  | .cons k v rest, h => by
    simp only [tameObj, Bool.and_eq_true, Bool.not_eq_true',
      decide_eq_false_iff_not] at h
    obtain ⟨⟨⟨⟨hk, _⟩, _⟩, hv⟩, hrest⟩ := h
    simp [containsKeyDeepObj, hk, tameV_noRef v hv, tameObj_noRef rest hrest]

end

/-- Inserting a fixpoint entry preserves the fixpoint entry shape. -/
theorem gObjE_insert : ∀ (acc : JObj) (k : String) (v : JValue),
    gObjE acc = true → gEntryOK k v = true → gObjE (insertGo acc k v) = true
  | .nil, k, v, _, he => by
    simp only [insertGo]
    unfold gObjE; unfold gObjE
    simp [he]
  | .cons k0 v0 rest, k, v, ha, he => by
    unfold gObjE at ha
    simp only [Bool.and_eq_true] at ha
    by_cases h0 : k0 = k
    · simp only [insertGo, if_pos h0]
      unfold gObjE
      simp [he, ha.2]
    · simp only [insertGo, if_neg h0]
      unfold gObjE
      simp [ha.1, gObjE_insert rest k v ha.2 he]

/-- `nullable: true` is a fixpoint entry. -/
theorem gEntryOK_nullable : gEntryOK "nullable" (.boolean true) = true := by
  unfold gEntryOK
  simp [allowedSchemaFieldsSet, wfDeep, containsKeyDeep]

/-- A `type` entry holding a plain string is a fixpoint entry. -/
theorem gEntryOK_type (s : String) : gEntryOK "type" (.str s) = true := by
  unfold gEntryOK
  simp [allowedSchemaFieldsSet]

/-- An `items` entry holding a fixpoint node is a fixpoint entry. -/
theorem gEntryOK_items (o : JObj) (h1 : gObjE o = true)
    (h2 : (JObj.keys o).Nodup) : gEntryOK "items" (.obj o) = true := by
  unfold gEntryOK
  simp [allowedSchemaFieldsSet, h1, h2]

/-- A `properties` entry holding a fixpoint property map is a fixpoint
entry. -/
theorem gEntryOK_properties (p : JObj) (h1 : gProps p = true)
    (h2 : (JObj.keys p).Nodup) : gEntryOK "properties" (.obj p) = true := by
  unfold gEntryOK
  simp [allowedSchemaFieldsSet, h1, h2]

/-- An `anyOf` entry holding a fixpoint member list is a fixpoint entry. -/
theorem gEntryOK_anyOf (l : JArr) (h1 : gArr l = true) :
    gEntryOK "anyOf" (.arr l) = true := by
  unfold gEntryOK
  simp [allowedSchemaFieldsSet, h1]

/-- A verbatim-kept entry: an allow-listed key other than the specially
handled ones, holding a well-formed `$ref`-free value. -/
theorem gEntryOK_other (k : String) (v : JValue)
    (hallow : k ∈ allowedSchemaFieldsSet)
    (h1 : k ≠ "allOf") (h2 : k ≠ "items") (h3 : k ≠ "properties")
    (h4 : k ≠ "type") (h5 : k ≠ "anyOf")
    (hwf : wfDeep v = true) (hnr : containsKeyDeep "$ref" v = false) :
    gEntryOK k v = true := by
  unfold gEntryOK
  rw [if_neg h2, if_neg h3, if_neg h4, if_neg h5]
  simp [hallow, h1, hwf, hnr]

/-- A fixpoint node is deeply well-formed and `$ref`-free, so pass 1 of a
second sanitizer run leaves it unchanged. -/
theorem g_wf_noRef : ∀ n : Nat,
    (∀ m, sizeOf m ≤ n → gObjE m = true →
      wfDeepObj m = true ∧ containsKeyDeepObj "$ref" m = false) ∧
    (∀ p, sizeOf p ≤ n → gProps p = true →
      wfDeepObj p = true ∧ containsKeyDeepObj "$ref" p = false) ∧
    (∀ l, sizeOf l ≤ n → gArr l = true →
      wfDeepArr l = true ∧ containsKeyDeepArr "$ref" l = false) := by
  intro n
  induction n with
  | zero =>
    refine ⟨?_, ?_, ?_⟩
    · intro m hsz _; exfalso; cases m <;> simp at hsz
    · intro p hsz _; exfalso; cases p <;> simp at hsz
    · intro l hsz _; exfalso; cases l <;> simp at hsz
  | succ n ih =>
    obtain ⟨ihF, ihP, ihAny⟩ := ih
    refine ⟨?_, ?_, ?_⟩
    · intro m hsz hg
      cases m with
      | nil => simp [wfDeepObj, containsKeyDeepObj]
      | cons k v rest =>
        simp only [gObjE, Bool.and_eq_true] at hg
        obtain ⟨hge, hgrest⟩ := hg
        unfold gEntryOK at hge
        simp only [Bool.and_eq_true, Bool.not_eq_true', decide_eq_true_eq,
          decide_eq_false_iff_not] at hge
        obtain ⟨⟨hallow, _⟩, hif⟩ := hge
        have hszrest : sizeOf rest ≤ n := by simp at hsz; omega
        have hkref : k ≠ "$ref" := by
          intro hc; subst hc; simp [allowedSchemaFieldsSet] at hallow
        obtain ⟨hwr, hnr⟩ := ihF rest hszrest hgrest
        have hval : wfDeep v = true ∧ containsKeyDeep "$ref" v = false := by
          by_cases hki : k = "items"
          · rw [if_pos hki] at hif
            cases v with
            | obj o =>
              simp only [Bool.and_eq_true, decide_eq_true_eq] at hif
              obtain ⟨hwo, hno⟩ := ihF o (by simp at hsz; omega) hif.1
              simp [wfDeep, containsKeyDeep, hwo, hno, hif.2]
            | null => simp at hif
            | boolean b => simp at hif
            | num q => simp at hif
            | str s => simp at hif
            | arr l => simp at hif
          · rw [if_neg hki] at hif
            by_cases hkp : k = "properties"
            · rw [if_pos hkp] at hif
              cases v with
              | obj p =>
                simp only [Bool.and_eq_true, decide_eq_true_eq] at hif
                obtain ⟨hwp, hnp⟩ := ihP p (by simp at hsz; omega) hif.1
                simp [wfDeep, containsKeyDeep, hwp, hnp, hif.2]
              | null => simp at hif
              | boolean b => simp at hif
              | num q => simp at hif
              | str s => simp at hif
              | arr l => simp at hif
            · rw [if_neg hkp] at hif
              by_cases hkt : k = "type"
              · rw [if_pos hkt] at hif
                cases v with
                | str s => simp [wfDeep, containsKeyDeep]
                | null => simp at hif
                | boolean b => simp at hif
                | num q => simp at hif
                | obj o => simp at hif
                | arr l => simp at hif
              · rw [if_neg hkt] at hif
                by_cases hka : k = "anyOf"
                · rw [if_pos hka] at hif
                  cases v with
                  | arr l =>
                    obtain ⟨hwl, hnl⟩ := ihAny l (by simp at hsz; omega) hif
                    simp [wfDeep, containsKeyDeep, hwl, hnl]
                  | null => simp at hif
                  | boolean b => simp at hif
                  | num q => simp at hif
                  | str s => simp at hif
                  | obj o => simp at hif
                · rw [if_neg hka] at hif
                  simp only [Bool.and_eq_true, Bool.not_eq_true'] at hif
                  exact ⟨hif.1, hif.2⟩
        simp [wfDeepObj, containsKeyDeepObj, hval.1, hval.2, hwr, hnr, hkref]
    · intro p hsz hg
      cases p with
      | nil => simp [wfDeepObj, containsKeyDeepObj]
      | cons pk pv rest =>
        unfold gProps at hg
        simp only [Bool.and_eq_true, Bool.not_eq_true',
          decide_eq_false_iff_not] at hg
        obtain ⟨⟨hpk, hpv⟩, hgrest⟩ := hg
        have hszrest : sizeOf rest ≤ n := by simp at hsz; omega
        obtain ⟨hwr, hnr⟩ := ihP rest hszrest hgrest
        cases pv with
        | obj o =>
          simp only [Bool.and_eq_true, decide_eq_true_eq] at hpv
          obtain ⟨hwo, hno⟩ := ihF o (by simp at hsz; omega) hpv.1
          simp [wfDeepObj, containsKeyDeepObj, wfDeep, containsKeyDeep,
            hwo, hno, hpv.2, hwr, hnr, hpk]
        | null => simp at hpv
        | boolean b => simp at hpv
        | num q => simp at hpv
        | str s => simp at hpv
        | arr l => simp at hpv
    · intro l hsz hg
      cases l with
      | nil => simp [wfDeepArr, containsKeyDeepArr]
      | cons el rest =>
        unfold gArr at hg
        simp only [Bool.and_eq_true] at hg
        obtain ⟨hel, hgrest⟩ := hg
        have hszrest : sizeOf rest ≤ n := by simp at hsz; omega
        obtain ⟨hwr, hnr⟩ := ihAny rest hszrest hgrest
        cases el with
        | obj o =>
          simp only [Bool.and_eq_true, decide_eq_true_eq] at hel
          obtain ⟨⟨ho, hnd⟩, _⟩ := hel
          obtain ⟨hwo, hno⟩ := ihF o (by simp at hsz; omega) ho
          simp [wfDeepArr, containsKeyDeepArr, wfDeep, containsKeyDeep,
            hwo, hno, hnd, hwr, hnr]
        | null => simp at hel
        | boolean b => simp at hel
        | num q => simp at hel
        | str s => simp at hel
        | arr l2 => simp at hel

/-- On a tame, deeply well-formed input, a successful run of the extproc
formatter from a fixpoint accumulator yields a fixpoint node with distinct
keys; moreover the output `type` is not the string `null` whenever neither
the accumulator's nor the input's was. -/
theorem fmtExt_tame_g : ∀ n : Nat,
    (∀ fields acc out, sizeOf fields ≤ n →
      tameObj fields = true → wfDeepObj fields = true →
      (JObj.keys fields).Nodup →
      fmtExtFields fields acc = .ok out →
      gObjE acc = true → (JObj.keys acc).Nodup →
      (gObjE out = true ∧ (JObj.keys out).Nodup ∧
       (lookupKey acc "type" ≠ some (.str "null") →
        lookupKey fields "type" ≠ some (.str "null") →
        lookupKey out "type" ≠ some (.str "null")))) ∧
    (∀ props out, sizeOf props ≤ n →
      tameObj props = true → wfDeepObj props = true →
      fmtExtProps props = .ok out →
      (gProps out = true ∧ List.Sublist (JObj.keys out) (JObj.keys props))) ∧
    (∀ l res nb, sizeOf l ≤ n →
      tameArr l = true → wfDeepArr l = true →
      fmtExtAnyOf l = .ok (res, nb) →
      gArr res = true) := by
  intro n
  induction n with
  | zero =>
    refine ⟨?_, ?_, ?_⟩
    · intro fields _ _ hsz _ _ _ _ _ _; exfalso; cases fields <;> simp at hsz
    · intro props _ hsz _ _ _; exfalso; cases props <;> simp at hsz
    · intro l _ _ hsz _ _ _; exfalso; cases l <;> simp at hsz
  | succ n ih =>
    obtain ⟨ihF, ihP, ihAny⟩ := ih
    refine ⟨?_, ?_, ?_⟩
    · intro fields acc out hsz ht hwf hnd h hgacc hndacc
      cases fields with
      | nil =>
        simp only [fmtExtFields] at h
        cases h
        exact ⟨hgacc, hndacc, fun ha _ => ha⟩
      | cons k v rest =>
        simp only [tameObj, Bool.and_eq_true, Bool.not_eq_true',
          decide_eq_false_iff_not] at ht
        obtain ⟨⟨⟨⟨hk1, hk2⟩, hk3⟩, htv⟩, htrest⟩ := ht
        simp only [wfDeepObj, Bool.and_eq_true] at hwf
        obtain ⟨hwfv, hwfrest⟩ := hwf
        simp only [JObj.keys, List.nodup_cons] at hnd
        obtain ⟨hknotin, hndrest⟩ := hnd
        have hszrest : sizeOf rest ≤ n := by simp at hsz; omega
        have hstep : ∀ acc', gObjE acc' = true → (JObj.keys acc').Nodup →
            fmtExtFields rest acc' = .ok out →
            (gObjE out = true ∧ (JObj.keys out).Nodup ∧
             (lookupKey acc' "type" ≠ some (.str "null") →
              lookupKey rest "type" ≠ some (.str "null") →
              lookupKey out "type" ≠ some (.str "null"))) :=
          fun acc' hg hnd2 hh =>
            ihF rest acc' out hszrest htrest hwfrest hndrest hh hg hnd2
        have hrestty : ∀ (hne : ¬ k = "type"),
            lookupKey (JObj.cons k v rest) "type" = lookupKey rest "type" :=
          fun hne => by simp [lookupKey, hne]
        unfold fmtExtFields at h
        by_cases hdefs : k = "$defs"
        · rw [if_pos hdefs] at h
          obtain ⟨hg', hnd', hty'⟩ := hstep acc hgacc hndacc h
          refine ⟨hg', hnd', ?_⟩
          intro hatype hftype
          refine hty' hatype ?_
          rw [← hrestty (by rw [hdefs]; decide)]
          exact hftype
        · rw [if_neg hdefs] at h
          by_cases hki : k = "items"
          · subst hki
            rw [if_pos rfl] at h
            cases v with
            | obj sub =>
              try simp only [] at h
              rw [goBind_eq_ok] at h
              obtain ⟨r, hr, h2⟩ := h
              simp only [tameV] at htv
              simp only [wfDeep, Bool.and_eq_true, decide_eq_true_eq] at hwfv
              obtain ⟨hgr, hndr, _⟩ := ihF sub .nil r (by simp at hsz; omega)
                htv hwfv.2 hwfv.1 hr rfl (by simp [JObj.keys])
              obtain ⟨hg', hnd', hty'⟩ := hstep
                (insertGo acc "items" (.obj r))
                (gObjE_insert acc "items" (.obj r) hgacc
                  (gEntryOK_items r hgr hndr))
                (keys_insertGo_nodup acc "items" (.obj r) hndacc) h2
              refine ⟨hg', hnd', ?_⟩
              intro hatype hftype
              refine hty' ?_ ?_
              · rw [lookupKey_insert_ne acc "items" "type" (.obj r) (by decide)]
                exact hatype
              · rw [← hrestty (by decide)]; exact hftype
            | null =>
              try simp only [] at h
              obtain ⟨hg', hnd', hty'⟩ := hstep acc hgacc hndacc h
              exact ⟨hg', hnd', fun ha hf => hty' ha
                (by rw [← hrestty (by decide)]; exact hf)⟩
            | boolean b =>
              try simp only [] at h
              obtain ⟨hg', hnd', hty'⟩ := hstep acc hgacc hndacc h
              exact ⟨hg', hnd', fun ha hf => hty' ha
                (by rw [← hrestty (by decide)]; exact hf)⟩
            | num q =>
              try simp only [] at h
              obtain ⟨hg', hnd', hty'⟩ := hstep acc hgacc hndacc h
              exact ⟨hg', hnd', fun ha hf => hty' ha
                (by rw [← hrestty (by decide)]; exact hf)⟩
            | str s =>
              try simp only [] at h
              obtain ⟨hg', hnd', hty'⟩ := hstep acc hgacc hndacc h
              exact ⟨hg', hnd', fun ha hf => hty' ha
                (by rw [← hrestty (by decide)]; exact hf)⟩
            | arr l =>
              try simp only [] at h
              obtain ⟨hg', hnd', hty'⟩ := hstep acc hgacc hndacc h
              exact ⟨hg', hnd', fun ha hf => hty' ha
                (by rw [← hrestty (by decide)]; exact hf)⟩
          · rw [if_neg hki] at h
            by_cases hkp : k = "properties"
            · subst hkp
              rw [if_pos rfl] at h
              cases v with
              | obj props =>
                try simp only [] at h
                rw [goBind_eq_ok] at h
                obtain ⟨pr, hpr, h2⟩ := h
                simp only [tameV] at htv
                simp only [wfDeep, Bool.and_eq_true, decide_eq_true_eq] at hwfv
                obtain ⟨hgpr, hsub⟩ := ihP props pr (by simp at hsz; omega)
                  htv hwfv.2 hpr
                have hndpr : (JObj.keys pr).Nodup :=
                  List.Nodup.sublist hsub hwfv.1
                obtain ⟨hg', hnd', hty'⟩ := hstep
                  (insertGo acc "properties" (.obj pr))
                  (gObjE_insert acc "properties" (.obj pr) hgacc
                    (gEntryOK_properties pr hgpr hndpr))
                  (keys_insertGo_nodup acc "properties" (.obj pr) hndacc) h2
                refine ⟨hg', hnd', ?_⟩
                intro hatype hftype
                refine hty' ?_ ?_
                · rw [lookupKey_insert_ne acc "properties" "type" (.obj pr)
                    (by decide)]
                  exact hatype
                · rw [← hrestty (by decide)]; exact hftype
              | null =>
                try simp only [] at h
                obtain ⟨hg', hnd', hty'⟩ := hstep acc hgacc hndacc h
                exact ⟨hg', hnd', fun ha hf => hty' ha
                  (by rw [← hrestty (by decide)]; exact hf)⟩
              | boolean b =>
                try simp only [] at h
                obtain ⟨hg', hnd', hty'⟩ := hstep acc hgacc hndacc h
                exact ⟨hg', hnd', fun ha hf => hty' ha
                  (by rw [← hrestty (by decide)]; exact hf)⟩
              | num q =>
                try simp only [] at h
                obtain ⟨hg', hnd', hty'⟩ := hstep acc hgacc hndacc h
                exact ⟨hg', hnd', fun ha hf => hty' ha
                  (by rw [← hrestty (by decide)]; exact hf)⟩
              | str s =>
                try simp only [] at h
                obtain ⟨hg', hnd', hty'⟩ := hstep acc hgacc hndacc h
                exact ⟨hg', hnd', fun ha hf => hty' ha
                  (by rw [← hrestty (by decide)]; exact hf)⟩
              | arr l =>
                try simp only [] at h
                obtain ⟨hg', hnd', hty'⟩ := hstep acc hgacc hndacc h
                exact ⟨hg', hnd', fun ha hf => hty' ha
                  (by rw [← hrestty (by decide)]; exact hf)⟩
            · rw [if_neg hkp] at h
              by_cases hkt : k = "type"
              · subst hkt
                rw [if_pos rfl] at h
                simp only [Bool.or_eq_true, Bool.not_eq_true',
                  decide_eq_false_iff_not] at hk3
                have htvOK : typeValOK v = true := by
                  rcases hk3 with hc | hc
                  · exact absurd trivial hc
                  · exact hc
                cases v with
                | str s =>
                  try simp only [] at h
                  obtain ⟨hg', hnd', hty'⟩ := hstep
                    (insertGo acc "type" (.str (goSprintfV (.str s))))
                    (gObjE_insert acc "type" _ hgacc (gEntryOK_type _))
                    (keys_insertGo_nodup acc "type" _ hndacc) h
                  refine ⟨hg', hnd', ?_⟩
                  intro hatype hftype
                  have hs : ¬ s = "null" := by
                    intro hc
                    apply hftype
                    simp [lookupKey, hc]
                  refine hty' ?_ ?_
                  · rw [lookupKey_insert_self]
                    have hgs : goSprintfV (.str s) = s := rfl
                    rw [hgs]
                    intro hc
                    simp at hc
                    exact hs hc
                  · intro hc
                    rw [lookupKey_eq_none rest "type" hknotin] at hc
                    cases hc
                | arr tl =>
                  simp only [typeValOK] at htvOK
                  cases tl with
                  | nil => simp at h
                  | cons t0 tl1 =>
                    cases tl1 with
                    | nil =>
                      cases t0 with
                      | str s0 => simp at h
                      | null => simp [typeValOK.typeValStrings] at htvOK
                      | boolean b => simp [typeValOK.typeValStrings] at htvOK
                      | num q => simp [typeValOK.typeValStrings] at htvOK
                      | arr l2 => simp [typeValOK.typeValStrings] at htvOK
                      | obj o2 => simp [typeValOK.typeValStrings] at htvOK
                    | cons t1 tl2 =>
                      cases t0 with
                      | null => simp [typeValOK.typeValStrings] at htvOK
                      | boolean b => simp [typeValOK.typeValStrings] at htvOK
                      | num q => simp [typeValOK.typeValStrings] at htvOK
                      | arr l2 => simp [typeValOK.typeValStrings] at htvOK
                      | obj o2 => simp [typeValOK.typeValStrings] at htvOK
                      | str s0 =>
                        cases t1 with
                        | null => simp [typeValOK.typeValStrings] at htvOK
                        | boolean b => simp [typeValOK.typeValStrings] at htvOK
                        | num q => simp [typeValOK.typeValStrings] at htvOK
                        | arr l2 => simp [typeValOK.typeValStrings] at htvOK
                        | obj o2 => simp [typeValOK.typeValStrings] at htvOK
                        | str s1 =>
                          cases tl2 with
                          | cons t2 tl3 => simp at h
                          | nil =>
                            try simp only [] at h
                            by_cases hs1 : s1 = "null"
                            · rw [if_pos (by rw [hs1])] at h
                              by_cases hs0 : s0 = "null"
                              · rw [if_pos (by rw [hs0])] at h
                                simp at h
                              · rw [if_neg (by simp [hs0])] at h
                                try simp only [] at h
                                obtain ⟨hg', hnd', hty'⟩ := hstep
                                  (insertGo (insertGo acc "type"
                                    (.str (goSprintfV (.str s0))))
                                    "nullable" (.boolean true))
                                  (gObjE_insert _ "nullable" _
                                    (gObjE_insert acc "type" _ hgacc
                                      (gEntryOK_type _)) gEntryOK_nullable)
                                  (keys_insertGo_nodup _ "nullable" _
                                    (keys_insertGo_nodup acc "type" _ hndacc)) h
                                refine ⟨hg', hnd', ?_⟩
                                intro hatype hftype
                                refine hty' ?_ ?_
                                · rw [lookupKey_insert_ne _ "nullable" "type" _
                                    (by decide), lookupKey_insert_self]
                                  have hgs : goSprintfV (.str s0) = s0 := rfl
                                  rw [hgs]
                                  intro hc
                                  simp at hc
                                  exact hs0 hc
                                · intro hc
                                  rw [lookupKey_eq_none rest "type" hknotin] at hc
                                  cases hc
                            · rw [if_neg (by simp [hs1])] at h
                              by_cases hs0 : s0 = "null"
                              · rw [if_pos (by rw [hs0])] at h
                                try simp only [] at h
                                obtain ⟨hg', hnd', hty'⟩ := hstep
                                  (insertGo (insertGo acc "type"
                                    (.str (goSprintfV (.str s1))))
                                    "nullable" (.boolean true))
                                  (gObjE_insert _ "nullable" _
                                    (gObjE_insert acc "type" _ hgacc
                                      (gEntryOK_type _)) gEntryOK_nullable)
                                  (keys_insertGo_nodup _ "nullable" _
                                    (keys_insertGo_nodup acc "type" _ hndacc)) h
                                refine ⟨hg', hnd', ?_⟩
                                intro hatype hftype
                                refine hty' ?_ ?_
                                · rw [lookupKey_insert_ne _ "nullable" "type" _
                                    (by decide), lookupKey_insert_self]
                                  have hgs : goSprintfV (.str s1) = s1 := rfl
                                  rw [hgs]
                                  intro hc
                                  simp at hc
                                  exact hs1 hc
                                · intro hc
                                  rw [lookupKey_eq_none rest "type" hknotin] at hc
                                  cases hc
                              · rw [if_neg (by simp [hs0])] at h
                                simp at h
                | null => simp [typeValOK] at htvOK
                | boolean b => simp [typeValOK] at htvOK
                | num q => simp [typeValOK] at htvOK
                | obj o => simp [typeValOK] at htvOK
              · rw [if_neg hkt] at h
                rw [if_neg hk2] at h
                by_cases hka : k = "anyOf"
                · subst hka
                  rw [if_pos rfl] at h
                  cases v with
                  | arr l =>
                    try simp only [] at h
                    rw [goBind_eq_ok] at h
                    obtain ⟨pr2, hpr2, h2⟩ := h
                    obtain ⟨results, nb⟩ := pr2
                    simp only [tameV] at htv
                    simp only [wfDeep] at hwfv
                    have hgres : gArr results = true :=
                      ihAny l results nb (by simp at hsz; omega) htv hwfv hpr2
                    try simp only [] at h2
                    have hfin : ∀ acc1, gObjE acc1 = true →
                        (JObj.keys acc1).Nodup →
                        lookupKey acc1 "type" = lookupKey acc "type" →
                        fmtExtFields rest (insertGo acc1 "anyOf" (.arr results)) =
                          .ok out →
                        (gObjE out = true ∧ (JObj.keys out).Nodup ∧
                         (lookupKey acc "type" ≠ some (.str "null") →
                          lookupKey (JObj.cons "anyOf" (.arr l) rest) "type" ≠
                            some (.str "null") →
                          lookupKey out "type" ≠ some (.str "null"))) := by
                      intro acc1 hg1 hnd1 hlk1 hh
                      obtain ⟨hg', hnd', hty'⟩ := hstep
                        (insertGo acc1 "anyOf" (.arr results))
                        (gObjE_insert acc1 "anyOf" _ hg1 (gEntryOK_anyOf _ hgres))
                        (keys_insertGo_nodup acc1 "anyOf" _ hnd1) hh
                      refine ⟨hg', hnd', ?_⟩
                      intro hatype hftype
                      refine hty' ?_ ?_
                      · rw [lookupKey_insert_ne acc1 "anyOf" "type" _ (by decide),
                          hlk1]
                        exact hatype
                      · rw [← hrestty (by decide)]; exact hftype
                    by_cases hnb : nb = true
                    · rw [if_pos hnb] at h2
                      exact hfin (insertGo acc "nullable" (.boolean true))
                        (gObjE_insert acc "nullable" _ hgacc gEntryOK_nullable)
                        (keys_insertGo_nodup acc "nullable" _ hndacc)
                        (lookupKey_insert_ne acc "nullable" "type" _ (by decide))
                        h2
                    · rw [if_neg hnb] at h2
                      exact hfin acc hgacc hndacc rfl h2
                  | null =>
                    try simp only [] at h
                    obtain ⟨hg', hnd', hty'⟩ := hstep acc hgacc hndacc h
                    exact ⟨hg', hnd', fun ha hf => hty' ha
                      (by rw [← hrestty (by decide)]; exact hf)⟩
                  | boolean b =>
                    try simp only [] at h
                    obtain ⟨hg', hnd', hty'⟩ := hstep acc hgacc hndacc h
                    exact ⟨hg', hnd', fun ha hf => hty' ha
                      (by rw [← hrestty (by decide)]; exact hf)⟩
                  | num q =>
                    try simp only [] at h
                    obtain ⟨hg', hnd', hty'⟩ := hstep acc hgacc hndacc h
                    exact ⟨hg', hnd', fun ha hf => hty' ha
                      (by rw [← hrestty (by decide)]; exact hf)⟩
                  | str s =>
                    try simp only [] at h
                    obtain ⟨hg', hnd', hty'⟩ := hstep acc hgacc hndacc h
                    exact ⟨hg', hnd', fun ha hf => hty' ha
                      (by rw [← hrestty (by decide)]; exact hf)⟩
                  | obj o =>
                    try simp only [] at h
                    obtain ⟨hg', hnd', hty'⟩ := hstep acc hgacc hndacc h
                    exact ⟨hg', hnd', fun ha hf => hty' ha
                      (by rw [← hrestty (by decide)]; exact hf)⟩
                · rw [if_neg hka] at h
                  by_cases hkin : k ∈ allowedSchemaFieldsSet
                  · rw [if_pos hkin] at h
                    obtain ⟨hg', hnd', hty'⟩ := hstep (insertGo acc k v)
                      (gObjE_insert acc k v hgacc
                        (gEntryOK_other k v hkin hk2 hki hkp hkt hka hwfv
                          (tameV_noRef v htv)))
                      (keys_insertGo_nodup acc k v hndacc) h
                    refine ⟨hg', hnd', ?_⟩
                    intro hatype hftype
                    refine hty' ?_ ?_
                    · rw [lookupKey_insert_ne acc k "type" v
                        (fun hc => hkt hc.symm)]
                      exact hatype
                    · rw [← hrestty hkt]; exact hftype
                  · rw [if_neg hkin] at h
                    obtain ⟨hg', hnd', hty'⟩ := hstep acc hgacc hndacc h
                    exact ⟨hg', hnd', fun ha hf => hty' ha
                      (by rw [← hrestty hkt]; exact hf)⟩
    · intro props out hsz ht hwf h
      cases props with
      | nil =>
        simp only [fmtExtProps] at h
        cases h
        exact ⟨rfl, List.Sublist.refl _⟩
      | cons pk pv rest =>
        simp only [tameObj, Bool.and_eq_true, Bool.not_eq_true',
          decide_eq_false_iff_not] at ht
        obtain ⟨⟨⟨⟨hpk1, _⟩, _⟩, htpv⟩, htrest⟩ := ht
        simp only [wfDeepObj, Bool.and_eq_true] at hwf
        obtain ⟨hwfpv, hwfrest⟩ := hwf
        have hszrest : sizeOf rest ≤ n := by simp at hsz; omega
        unfold fmtExtProps at h
        cases pv with
        | obj o =>
          try simp only [] at h
          rw [goBind_eq_ok] at h
          obtain ⟨r, hr, h2⟩ := h
          rw [goBind_eq_ok] at h2
          obtain ⟨rs, hrs, heq⟩ := h2
          have heq2 : JObj.cons pk (.obj r) rs = out := Except.ok.inj heq
          subst heq2
          simp only [tameV] at htpv
          simp only [wfDeep, Bool.and_eq_true, decide_eq_true_eq] at hwfpv
          obtain ⟨hgr, hndr, _⟩ := ihF o .nil r (by simp at hsz; omega)
            htpv hwfpv.2 hwfpv.1 hr rfl (by simp [JObj.keys])
          obtain ⟨hgrs, hsubrs⟩ := ihP rest rs hszrest htrest hwfrest hrs
          constructor
          · unfold gProps
            simp [hpk1, hgr, hndr, hgrs]
          · simp only [JObj.keys]
            exact List.Sublist.cons₂ pk hsubrs
        | null =>
          try simp only [] at h
          obtain ⟨hgout, hsubout⟩ := ihP rest out hszrest htrest hwfrest h
          exact ⟨hgout, by
            simp only [JObj.keys]
            exact List.Sublist.cons pk hsubout⟩
        | boolean b =>
          try simp only [] at h
          obtain ⟨hgout, hsubout⟩ := ihP rest out hszrest htrest hwfrest h
          exact ⟨hgout, by
            simp only [JObj.keys]
            exact List.Sublist.cons pk hsubout⟩
        | num q =>
          try simp only [] at h
          obtain ⟨hgout, hsubout⟩ := ihP rest out hszrest htrest hwfrest h
          exact ⟨hgout, by
            simp only [JObj.keys]
            exact List.Sublist.cons pk hsubout⟩
        | str s =>
          try simp only [] at h
          obtain ⟨hgout, hsubout⟩ := ihP rest out hszrest htrest hwfrest h
          exact ⟨hgout, by
            simp only [JObj.keys]
            exact List.Sublist.cons pk hsubout⟩
        | arr l =>
          try simp only [] at h
          obtain ⟨hgout, hsubout⟩ := ihP rest out hszrest htrest hwfrest h
          exact ⟨hgout, by
            simp only [JObj.keys]
            exact List.Sublist.cons pk hsubout⟩
    · intro l res nb hsz ht hwf h
      cases l with
      | nil =>
        simp only [fmtExtAnyOf] at h
        have : res = JArr.nil := by
          cases h; rfl
        subst this
        rfl
      | cons el rest =>
        simp only [tameArr, Bool.and_eq_true] at ht
        obtain ⟨htel, htrest⟩ := ht
        simp only [wfDeepArr, Bool.and_eq_true] at hwf
        obtain ⟨hwel, hwrest⟩ := hwf
        have hszrest : sizeOf rest ≤ n := by simp at hsz; omega
        unfold fmtExtAnyOf at h
        cases el with
        | obj sub =>
          try simp only [] at h
          by_cases hnull : lookupKey sub "type" = some (.str "null")
          · rw [if_pos hnull] at h
            rw [goBind_eq_ok] at h
            obtain ⟨pr2, hpr2, heq⟩ := h
            obtain ⟨rs, b⟩ := pr2
            try simp only [] at heq
            have hres : rs = res := congrArg Prod.fst (Except.ok.inj heq)
            subst hres
            exact ihAny rest rs b hszrest htrest hwrest hpr2
          · rw [if_neg hnull] at h
            rw [goBind_eq_ok] at h
            obtain ⟨r, hr, h2⟩ := h
            rw [goBind_eq_ok] at h2
            obtain ⟨pr2, hpr2, heq⟩ := h2
            obtain ⟨rs, b⟩ := pr2
            try simp only [] at heq
            have hres : JArr.cons (.obj r) rs = res :=
              congrArg Prod.fst (Except.ok.inj heq)
            subst hres
            simp only [tameV] at htel
            simp only [wfDeep, Bool.and_eq_true, decide_eq_true_eq] at hwel
            obtain ⟨hgr, hndr, htyr⟩ := ihF sub .nil r (by simp at hsz; omega)
              htel hwel.2 hwel.1 hr rfl (by simp [JObj.keys])
            have hgrest : gArr rs = true :=
              ihAny rest rs b hszrest htrest hwrest hpr2
            unfold gArr
            simp [hgr, hndr, hgrest]
            exact htyr (by simp [lookupKey]) hnull
        | null =>
          try simp only [] at h
          exact ihAny rest res nb hszrest htrest hwrest h
        | boolean b2 =>
          try simp only [] at h
          exact ihAny rest res nb hszrest htrest hwrest h
        | num q =>
          try simp only [] at h
          exact ihAny rest res nb hszrest htrest hwrest h
        | str s =>
          try simp only [] at h
          exact ihAny rest res nb hszrest htrest hwrest h
        | arr l2 =>
          try simp only [] at h
          exact ihAny rest res nb hszrest htrest hwrest h

/-- C7 (counterexample): `sanitizeJSONSchema` is not idempotent on `$ref`-free
schemas.  The schema `{"anyOf":[{"type":[{"type":"null"},"null"]}]}` contains
no `$ref`, sanitizes successfully to
`{"anyOf":[{"type":"null","nullable":true}]}`, yet sanitizing that output
yields `{"nullable":true,"anyOf":[]}`, a different tree: the first pass keeps
the member because its `type` is a list, the merge then materialises
`type: "null"`, and the second pass absorbs the member into `nullable`. -/
theorem C7_sanitize_not_idempotent :
    containsKeyDeepObj "$ref" c7s = false ∧
    sanitizeJSONSchema c7s = .ok (.obj c7o1) ∧
    sanitizeJSONSchema c7o1 = .ok (.obj c7o2) ∧
    c7o2 ≠ c7o1 := by decide

/-- C7 (amended): on tame schemas — no `$ref` and no `allOf` key anywhere,
every `type` value a string or a list of strings, distinct keys at every
object node — a successful `sanitizeJSONSchema` is idempotent: the result is
a map that sanitizes to itself. -/
theorem C7_sanitize_idempotent_amended (s : JObj) (out : JValue)
    (ht : tameObj s = true) (hwf : wfDeep (.obj s) = true)
    (h : sanitizeJSONSchema s = .ok out) :
    ∃ m : JObj, out = .obj m ∧ sanitizeJSONSchema m = .ok out := by
  have hnr : containsKeyDeepObj "$ref" s = false := tameObj_noRef s ht
  have hder := dereferenceRefs_noRef s hnr hwf
  unfold sanitizeJSONSchema at h
  rw [hder] at h
  simp only [goBind_ok] at h
  try simp only [] at h
  cases hf : formatJSONSchemaToGapic s with
  | error e => rw [hf] at h; simp [Except.map] at h
  | ok m1 =>
    rw [hf] at h
    simp only [Except.map] at h
    have hout : JValue.obj m1 = out := Except.ok.inj h
    subst hout
    simp only [wfDeep, Bool.and_eq_true, decide_eq_true_eq] at hwf
    unfold formatJSONSchemaToGapic at hf
    obtain ⟨hg1, hnd1, _⟩ := (fmtExt_tame_g (sizeOf s)).1 s .nil m1 le_rfl
      ht hwf.2 hwf.1 hf rfl (by simp [JObj.keys])
    obtain ⟨hwm, hnm⟩ := (g_wf_noRef (sizeOf m1)).1 m1 le_rfl hg1
    refine ⟨m1, rfl, ?_⟩
    unfold sanitizeJSONSchema
    rw [dereferenceRefs_noRef m1 hnm (by simp [wfDeep, hnd1, hwm])]
    simp only [goBind_ok]
    have hfix : fmtExtFields m1 .nil = .ok m1 :=
      (fmtExt_g_fix (sizeOf m1)).1 m1 .nil le_rfl hg1 hnd1
        (by intro a _ hc; simp [JObj.keys] at hc)
    show (formatJSONSchemaToGapic m1).map JValue.obj = .ok (.obj m1)
    unfold formatJSONSchemaToGapic
    rw [hfix]
    rfl

/-- The amended C7 theorem applied at the concrete tame schema
`{"type": "string"}`. -/
theorem C7_sanitize_idempotent_amended_witness :
    tameObj (JObj.cons "type" (.str "string") .nil) = true ∧
    wfDeep (.obj (JObj.cons "type" (.str "string") .nil)) = true ∧
    sanitizeJSONSchema (JObj.cons "type" (.str "string") .nil) =
      .ok (.obj (JObj.cons "type" (.str "string") .nil)) ∧
    ∃ m : JObj, JValue.obj (JObj.cons "type" (.str "string") .nil) = .obj m ∧
      sanitizeJSONSchema m = .ok (.obj (JObj.cons "type" (.str "string") .nil)) :=
  ⟨by decide, by decide, by decide,
    C7_sanitize_idempotent_amended (JObj.cons "type" (.str "string") .nil)
      (.obj (JObj.cons "type" (.str "string") .nil))
      (by decide) (by decide) (by decide)⟩

/-- C1 (counterexample): circular references are not handled as claimed by
either dereferencer.  The extproc `dereferenceRefs` silently truncates the
cyclic schema `{$defs:{A:{$ref:#/$defs/B}, B:{$ref:#/$defs/A}}, $ref:#/$defs/A}`
to the empty map instead of failing; and the Gemini translator's
`jsonSchemaDereference` rejects `siblingSchema`, whose two sibling
properties merely reuse the same (acyclic) pointer: its skip-key inference
pass (`jsonSchemaSkipKeys`) errors on the pointer's second occurrence,
because that pass shares one visited set across the whole walk and never
removes entries. -/
theorem C1_circular_reference_counterexample :
    dereferenceRefs cyclicSchema = .ok (JValue.obj .nil) ∧
    jsonSchemaDereference siblingSchema =
      .error (.err "invalid JSON schema: self recursive schema is currently not supported") := by
  constructor
  · rfl
  · rfl

/-- C1 (amended): what the two dereferencers actually do on reference
cycles.  Both recursive dereference helpers remove the visited entry on
unwind, as the spec says; what differs is the reaction to a pointer that is
still on the stack, and the skip-key inference pass that runs first.  The
extproc `dereferenceRefs` silently skips an already-visited `$ref` (its
`continue`), so the cyclic schema dereferences successfully to the empty
map instead of failing, and the sibling-reuse schema resolves both siblings
(the unwind removal at work).  The Gemini-translator
`jsonSchemaDereference` fails with the self-recursive-schema error on the
true cycle, but also on mere sibling reuse of one acyclic pointer: the
error is raised already by its skip-key pass (`jsonSchemaSkipKeys`), whose
visited set is shared across the whole walk and never removed.  Neither
version emits a `CircularReference` error.  The last two conjuncts pin the
mechanism down: on the sibling schema the part_002 skip-key pass alone
already errors, while the part_002 dereference helper alone (run with no
skip keys) resolves both siblings — its unwind removal works. -/
theorem C1_dereference_cycles_amended :
    dereferenceRefs cyclicSchema = .ok (JValue.obj .nil) ∧
    dereferenceRefs siblingSchema = .ok siblingSchemaDeref ∧
    jsonSchemaDereference cyclicSchema =
      .error (.err "invalid JSON schema: self recursive schema is currently not supported") ∧
    jsonSchemaDereference siblingSchema =
      .error (.err "invalid JSON schema: self recursive schema is currently not supported") ∧
    jsonSchemaSkipKeys (derefFuel siblingSchema) (.obj siblingSchema)
        siblingSchema [] =
      .error (.err "self recursive schema is currently not supported") ∧
    jsonSchemaDereferenceHelper (derefFuel siblingSchema) (.obj siblingSchema)
        siblingSchema [] [] = .ok siblingSchemaDeref := by
  refine ⟨?_, ?_, ?_, ?_, ?_, ?_⟩ <;> rfl

/-- C5: both formatters collapse a two-element `type` list of one concrete
string type plus `"null"` (in either order) to the concrete type with
`nullable = true`, and reject a two-element list with no `"null"` member;
a `type` list of any other length is rejected with a length error. -/
theorem C5_nullable_type_collapse (s t : String)
    (hs : s ≠ "null") (ht : t ≠ "null") :
    (formatJSONSchemaToGapic
        (.cons "type" (.arr (.cons (.str s) (.cons (.str "null") .nil))) .nil) =
      .ok (.cons "type" (.str s) (.cons "nullable" (.boolean true) .nil))) ∧
    (formatJSONSchemaToGapic
        (.cons "type" (.arr (.cons (.str "null") (.cons (.str s) .nil))) .nil) =
      .ok (.cons "type" (.str s) (.cons "nullable" (.boolean true) .nil))) ∧
    (jsonSchemaToGapic
        (.cons "type" (.arr (.cons (.str "string") (.cons (.str "null") .nil))) .nil)
        geminiAllowedSchemaFields =
      .ok (.cons "type" (.str "string") (.cons "nullable" (.boolean true) .nil))) ∧
    (formatJSONSchemaToGapic
        (.cons "type" (.arr (.cons (.str s) (.cons (.str t) .nil))) .nil) =
      .error (.err "GcpConversionException: If type is a list, it must contain one non-null type and 'null'., type: REQUEST_CONVERSION")) ∧
    (jsonSchemaToGapic
        (.cons "type" (.arr (.cons (.str "string") (.cons (.str "number") .nil))) .nil)
        geminiAllowedSchemaFields =
      .error (.err "invalid JSON schema: If type is a list, it must contain one non-null type and 'null'.")) ∧
    (∀ v0 : JValue, formatJSONSchemaToGapic
        (.cons "type" (.arr (.cons v0 .nil)) .nil) =
      .error (.err "GcpConversionException: If the value of type is a list, the length of the list must be 2. Got 1., type: REQUEST_CONVERSION")) ∧
    (∀ v0 v1 v2 : JValue, formatJSONSchemaToGapic
        (.cons "type" (.arr (.cons v0 (.cons v1 (.cons v2 .nil)))) .nil) =
      .error (.err "GcpConversionException: If the value of type is a list, the length of the list must be 2. Got 3., type: REQUEST_CONVERSION")) := by
  refine ⟨?_, ?_, ?_, ?_, ?_, ?_, ?_⟩
  · simp [formatJSONSchemaToGapic, fmtExtFields, insertGo, goSprintfV, hs]
  · simp [formatJSONSchemaToGapic, fmtExtFields, insertGo, goSprintfV, hs]
  · decide
  · show fmtExtFields
      (.cons "type" (.arr (.cons (.str s) (.cons (.str t) .nil))) .nil) .nil = _
    rw [fmtExtFields.eq_def]
    simp only []
    simp [hs, ht]
  · decide
  · intro v0
    show fmtExtFields (.cons "type" (.arr (.cons v0 .nil)) .nil) .nil = _
    rw [fmtExtFields.eq_def]
    simp only []
    simp [JArr.length]
    rfl
  · intro v0 v1 v2
    show fmtExtFields
      (.cons "type" (.arr (.cons v0 (.cons v1 (.cons v2 .nil)))) .nil) .nil = _
    rw [fmtExtFields.eq_def]
    simp only []
    simp [JArr.length]
    rfl

/-- C5 applied at the concrete types of the spec's example:
`{"type":["string","null"]}` collapses, `{"type":["string","number"]}`
errors. -/
theorem C5_nullable_type_collapse_witness :
    ("string" : String) ≠ "null" ∧ ("number" : String) ≠ "null" ∧
    formatJSONSchemaToGapic
        (.cons "type" (.arr (.cons (.str "string") (.cons (.str "null") .nil))) .nil) =
      .ok (.cons "type" (.str "string") (.cons "nullable" (.boolean true) .nil)) :=
  ⟨by decide, by decide,
    (C5_nullable_type_collapse "string" "number" (by decide) (by decide)).1⟩

/-- C6 (counterexample): the sanitizer's output can contain `$defs` (and in
general arbitrary keys) inside values kept verbatim.  The schema
`{"default":{"$defs":{"a":5}}}` sanitizes successfully to itself: `default`
is allow-listed and its value is copied without being walked, so the claimed
"no `$defs` anywhere, including inside values kept verbatim" is false. -/
theorem C6_verbatim_values_leak_defs :
    sanitizeJSONSchema c6schema = .ok c6out ∧
    containsKeyDeep "$defs" c6out = true := by decide

/-- C6 (amended): every node the formatter itself walks and produces is
allow-listed: a successful `formatJSONSchemaToGapic` yields a node whose
keys all lie in `allowedSchemaFieldsSet` — in particular neither `$ref` nor
`$defs` — and whose `items`/`properties`/`anyOf` entries recursively satisfy
the same invariant.  (Values of other allow-listed keys are kept verbatim
and are unconstrained, per the counterexample.) -/
theorem C6_allowlist_walked_nodes (s out : JObj)
    (h : formatJSONSchemaToGapic s = .ok out) :
    sanitizedObj out = true ∧ "$ref" ∉ JObj.keys out ∧ "$defs" ∉ JObj.keys out := by
  have hS : sanitizedObj out = true :=
    (fmtExt_sanitized_all (sizeOf s)).1 s .nil out le_rfl h sanitizedObj_nil
  exact ⟨hS, (sanitized_no_ref_defs out hS).1, (sanitized_no_ref_defs out hS).2⟩

/-- The amended C6 theorem applied at the concrete schema
`{"type":"string","extra":1}` (the non-allow-listed key is dropped). -/
theorem C6_allowlist_walked_nodes_witness :
    formatJSONSchemaToGapic (.cons "type" (.str "string") (.cons "extra" (.num 1) .nil)) =
      .ok (.cons "type" (.str "string") .nil) ∧
    (sanitizedObj (.cons "type" (.str "string") .nil) = true ∧
     "$ref" ∉ JObj.keys (.cons "type" (.str "string") .nil) ∧
     "$defs" ∉ JObj.keys (.cons "type" (.str "string") .nil)) :=
  ⟨by decide,
    C6_allowlist_walked_nodes
      (.cons "type" (.str "string") (.cons "extra" (.num 1) .nil))
      (.cons "type" (.str "string") .nil) (by decide)⟩

/-- C8 (code bug): `retrieveRef` panics instead of returning an error when an
intermediate path segment is present but not a JSON object.  On the path
`#/a/b` over the document `{"a": 5}`, the Go code's unchecked type assertion
`schema[component].(map[string]any)` panics (`interface conversion`); only a
missing key produces the `not found` error.  A missing segment errors as
specified. -/
theorem C8_retrieveRef_panics_on_non_map :
    retrieveRef "#/a/b" (.cons "a" (.num 5) .nil) =
      .error (.crash "interface conversion: interface is not map[string]any") ∧
    retrieveRef "#/a/b" (.cons "c" (.num 5) .nil) =
      .error (.err "invalid JSON schema: Reference '#/a/b' not found: intermediate component is not a map") := by
  decide

/-- C2: for all counter values of the Anthropic accountant, the result
satisfies `total = input + output` and `cached-input ≤ input`, input folds
in cache-creation and cache-read (`input = i + c + r`, `cached = r + c`),
and the spec's example (base input 70, cache-read 10, cache-creation 5)
yields input 85 and cached-input 15. -/
theorem C2_token_accounting (i o r c : Nat) :
    (extractLLMTokenUsageFromAnthropic i o r c).totalTokens =
      (extractLLMTokenUsageFromAnthropic i o r c).inputTokens +
      (extractLLMTokenUsageFromAnthropic i o r c).outputTokens ∧
    (extractLLMTokenUsageFromAnthropic i o r c).cachedInputTokens ≤
      (extractLLMTokenUsageFromAnthropic i o r c).inputTokens ∧
    (extractLLMTokenUsageFromAnthropic i o r c).inputTokens = i + c + r ∧
    (extractLLMTokenUsageFromAnthropic i o r c).cachedInputTokens = r + c ∧
    (extractLLMTokenUsageFromAnthropic 70 o 10 5).inputTokens = 85 ∧
    (extractLLMTokenUsageFromAnthropic 70 o 10 5).cachedInputTokens = 15 := by
  refine ⟨rfl, ?_, rfl, rfl, rfl, rfl⟩
  simp only [extractLLMTokenUsageFromAnthropic]
  omega

/-- C9: union validation rejects exactly the invalid union states — an error
when both request variants are set, an error when neither is set, success
when exactly one is set — and each tokenize translator's `RequestBody`
returns the wrapped validation error, producing no headers and no body, on
an invalid union. -/
theorem C9_tokenize_union_validation (r : TokenizeRequestUnion) :
    (r.ofCompletion ≠ none → r.ofChat ≠ none →
      r.validate = .error (.err "only one request type can be set")) ∧
    (r.ofCompletion = none → r.ofChat = none →
      r.validate = .error (.err "one request type must be set")) ∧
    (r.ofCompletion ≠ none → r.ofChat = none → r.validate = .ok ()) ∧
    (r.ofCompletion = none → r.ofChat ≠ none → r.validate = .ok ()) ∧
    (∀ e, r.validate = .error e →
      (∀ setF ovr orig force,
        translatorV1TokenizeRequestBody setF ovr orig r force =
          .error (wrapInvalidTokenize e)) ∧
      (∀ (α : Type) conv marshal esc ovr,
        toAWSBedrockTokenizeRequestBody α conv marshal esc ovr r =
          .error (wrapInvalidTokenize e)) ∧
      (∀ (α : Type) conv marshal setV path ovr,
        toGCPAnthropicTokenizeRequestBody α conv marshal setV path ovr r =
          .error (wrapInvalidTokenize e))) := by
  obtain ⟨oc, och⟩ := r
  refine ⟨?_, ?_, ?_, ?_, ?_⟩
  · intro h1 h2
    cases oc with
    | none => exact absurd rfl h1
    | some c =>
      cases och with
      | none => exact absurd rfl h2
      | some ch => rfl
  · intro h1 h2
    cases oc with
    | some c => exact absurd h1 (by simp)
    | none =>
      cases och with
      | some ch => exact absurd h2 (by simp)
      | none => rfl
  · intro h1 h2
    cases oc with
    | none => exact absurd rfl h1
    | some c => cases och with
      | none => rfl
      | some ch => exact absurd h2 (by simp)
  · intro h1 h2
    cases oc with
    | some c => exact absurd h1 (by simp)
    | none => cases och with
      | some ch => rfl
      | none => exact absurd rfl h2
  · intro e he
    refine ⟨?_, ?_, ?_⟩
    · intro setF ovr orig force
      unfold translatorV1TokenizeRequestBody
      rw [he]
    · intro α conv marshal esc ovr
      unfold toAWSBedrockTokenizeRequestBody
      rw [he]
    · intro α conv marshal setV path ovr
      unfold toGCPAnthropicTokenizeRequestBody
      rw [he]

/-- C9 applied at the concrete both-set union (completion `{model:"m",
prompt:"p"}` and chat `{model:"m"}` simultaneously): validation errors and
the passthrough translator propagates the wrapped error. -/
theorem C9_tokenize_union_validation_witness :
    (TokenizeRequestUnion.mk (some ⟨"m", "p", true⟩)
        (some ⟨"m", JValue.null, true, false⟩)).ofCompletion ≠ none ∧
    (TokenizeRequestUnion.mk (some ⟨"m", "p", true⟩)
        (some ⟨"m", JValue.null, true, false⟩)).ofChat ≠ none ∧
    (TokenizeRequestUnion.mk (some ⟨"m", "p", true⟩)
        (some ⟨"m", JValue.null, true, false⟩)).validate =
      .error (.err "only one request type can be set") :=
  ⟨by decide, by decide,
    (C9_tokenize_union_validation
      (TokenizeRequestUnion.mk (some ⟨"m", "p", true⟩)
        (some ⟨"m", JValue.null, true, false⟩))).1 (by decide) (by decide)⟩

/-- C10: `ParseBody` classifies solely by the presence of the top-level
`messages` key — chat when present, completion otherwise (even without a
`prompt` key) — and every success carries a union with exactly one variant
set, the model taken from that variant, and a streaming flag of `false`. -/
theorem C10_tokenize_parse_body
    (chatOf : JObj → GoResult TokenizeChatRequest)
    (complOf : JObj → GoResult TokenizeCompletionRequest)
    (raw : JObj) (m : String) (u : TokenizeRequestUnion) (strm : Bool)
    (h : tokenizeEndpointSpecParseBody chatOf complOf raw = .ok (m, u, strm)) :
    strm = false ∧
    ((lookupKey raw "messages").isSome →
      u.ofCompletion = none ∧
      ∃ c, u.ofChat = some c ∧ chatOf raw = .ok c ∧
        c.validate = .ok () ∧ m = c.model) ∧
    ((lookupKey raw "messages").isNone →
      u.ofChat = none ∧
      ∃ c, u.ofCompletion = some c ∧ complOf raw = .ok c ∧ m = c.model) := by
  unfold tokenizeEndpointSpecParseBody at h
  by_cases hm : (lookupKey raw "messages").isSome
  · rw [if_pos hm] at h
    cases hc : chatOf raw with
    | error e => rw [hc] at h; simp at h
    | ok chatReq =>
      rw [hc] at h
      try simp only [] at h
      cases hv : chatReq.validate with
      | error e => rw [hv] at h; simp at h
      | ok uu =>
        rw [hv] at h
        try simp only [] at h
        have hred : (⟨none, some chatReq⟩ : TokenizeRequestUnion).validate =
            .ok () := rfl
        rw [hred] at h
        try simp only [] at h
        have h2 : (m, u, strm) = (chatReq.model,
            (⟨none, some chatReq⟩ : TokenizeRequestUnion), false) := by
          have := Except.ok.inj h
          exact this.symm
        obtain ⟨hm1, hu1, hs1⟩ :
            m = chatReq.model ∧
            u = (⟨none, some chatReq⟩ : TokenizeRequestUnion) ∧
            strm = false := by
          refine ⟨congrArg Prod.fst h2, ?_, ?_⟩
          · exact congrArg (fun x => x.snd.fst) h2
          · exact congrArg (fun x => x.snd.snd) h2
        subst hm1; subst hu1; subst hs1
        refine ⟨rfl, ?_, ?_⟩
        · intro _
          refine ⟨rfl, chatReq, rfl, rfl, ?_, rfl⟩
          cases uu
          exact hv
        · intro hnone
          rw [Option.isSome_iff_ne_none] at hm
          rw [Option.isNone_iff_eq_none] at hnone
          exact absurd hnone hm
  · rw [if_neg hm] at h
    cases hc : complOf raw with
    | error e => rw [hc] at h; simp at h
    | ok complReq =>
      rw [hc] at h
      try simp only [] at h
      have hred : (⟨some complReq, none⟩ : TokenizeRequestUnion).validate =
          .ok () := rfl
      rw [hred] at h
      try simp only [] at h
      have h2 : (m, u, strm) = (complReq.model,
          (⟨some complReq, none⟩ : TokenizeRequestUnion), false) := by
        have := Except.ok.inj h
        exact this.symm
      obtain ⟨hm1, hu1, hs1⟩ :
          m = complReq.model ∧
          u = (⟨some complReq, none⟩ : TokenizeRequestUnion) ∧
          strm = false := by
        refine ⟨congrArg Prod.fst h2, ?_, ?_⟩
        · exact congrArg (fun x => x.snd.fst) h2
        · exact congrArg (fun x => x.snd.snd) h2
      subst hm1; subst hu1; subst hs1
      refine ⟨rfl, ?_, ?_⟩
      · intro hsome
        exact absurd hsome hm
      · intro _
        exact ⟨rfl, complReq, rfl, rfl, rfl⟩

/-- C10 applied at a concrete body without a `messages` key (and without a
`prompt` key) and constant decoders: the body parses as a completion
request with `stream = false` and a one-variant union. -/
theorem C10_tokenize_parse_body_witness :
    tokenizeEndpointSpecParseBody
        (fun _ => .ok ⟨"mc", JValue.null, true, false⟩)
        (fun _ => .ok ⟨"m", "", true⟩)
        (.cons "model" (.str "m") .nil) =
      .ok ("m", (⟨some ⟨"m", "", true⟩, none⟩ : TokenizeRequestUnion), false) ∧
    ((false : Bool) = false ∧
     ((lookupKey (.cons "model" (.str "m") .nil) "messages").isSome →
       (⟨some ⟨"m", "", true⟩, none⟩ : TokenizeRequestUnion).ofCompletion = none ∧
       ∃ c, (⟨some ⟨"m", "", true⟩, none⟩ : TokenizeRequestUnion).ofChat = some c ∧
         (fun (_ : JObj) =>
           (.ok ⟨"mc", JValue.null, true, false⟩ :
             GoResult TokenizeChatRequest)) (.cons "model" (.str "m") .nil) =
             .ok c ∧
         c.validate = .ok () ∧ "m" = c.model) ∧
     ((lookupKey (.cons "model" (.str "m") .nil) "messages").isNone →
       (⟨some ⟨"m", "", true⟩, none⟩ : TokenizeRequestUnion).ofChat = none ∧
       ∃ c, (⟨some ⟨"m", "", true⟩, none⟩ : TokenizeRequestUnion).ofCompletion =
           some c ∧
         (fun (_ : JObj) =>
           (.ok ⟨"m", "", true⟩ :
             GoResult TokenizeCompletionRequest)) (.cons "model" (.str "m") .nil) =
             .ok c ∧
         "m" = c.model)) :=
  ⟨by decide,
    C10_tokenize_parse_body
      (fun _ => .ok ⟨"mc", JValue.null, true, false⟩)
      (fun _ => .ok ⟨"m", "", true⟩)
      (.cons "model" (.str "m") .nil) "m"
      (⟨some ⟨"m", "", true⟩, none⟩ : TokenizeRequestUnion) false (by decide)⟩

/-- C3 (counterexample): the sentinel behaviour is per-call and
per-translator, not the claimed exact-once `"data: [DONE]\n\n"`.  The
part_007 AWS OpenAI translator appends `"data: [DONE]\n"` — one trailing
newline, not the claimed exact byte string — and because each translator's
suffix guard sees only the current call's bytes, an empty end-of-stream call
after a call that already carried the sentinel appends it a second time
(shown for both translators). -/
theorem C3_sentinel_counterexample :
    awsOpenAIResponseBodyStream "" true = "data: [DONE]\n" ∧
    "data: [DONE]\n" ≠ "data: [DONE]\n\n" ∧
    awsOpenAIResponseBodyStream "data: [DONE]\n" false ++
        awsOpenAIResponseBodyStream "" true =
      "data: [DONE]\ndata: [DONE]\n" ∧
    awsInvokeOpenAIResponseBodyStream "data: [DONE]\n\n" false ++
        awsInvokeOpenAIResponseBodyStream "" true =
      "data: [DONE]\n\ndata: [DONE]\n\n" := by
  refine ⟨by decide, by decide, by decide, by decide⟩

/-- C3 (amended): the guarantee each translator actually provides, per
call.  On a non-final call the bytes pass through unchanged.  On the final
call the Invoke translator appends its sentinel `"data: [DONE]\n\n"` only
when the current bytes do not already end with it — so the final call's
output always ends with the sentinel exactly as appended and a final call
whose bytes already carry it appends nothing; the part_007 translator gives
the same per-call guarantee for its single-newline sentinel
`"data: [DONE]\n"`. -/
theorem C3_sentinel_per_call_amended (buf : String) :
    (awsInvokeOpenAIResponseBodyStream buf false = buf) ∧
    (awsInvokeOpenAIResponseBodyStream buf true = buf ∨
     awsInvokeOpenAIResponseBodyStream buf true = buf ++ "data: [DONE]\n\n") ∧
    goHasSuffix (awsInvokeOpenAIResponseBodyStream buf true) "data: [DONE]\n\n" = true ∧
    (goHasSuffix buf "data: [DONE]\n\n" = true →
      awsInvokeOpenAIResponseBodyStream buf true = buf) ∧
    (awsOpenAIResponseBodyStream buf false = buf) ∧
    goHasSuffix (awsOpenAIResponseBodyStream buf true) "data: [DONE]\n" = true ∧
    (goHasSuffix buf "data: [DONE]\n" = true →
      awsOpenAIResponseBodyStream buf true = buf) := by
  have happ : ∀ (s suf : String), goHasSuffix (s ++ suf) suf = true := by
    intro s suf
    simp [goHasSuffix, String.data_append, List.isSuffixOf]
  refine ⟨?_, ?_, ?_, ?_, ?_, ?_, ?_⟩
  · simp [awsInvokeOpenAIResponseBodyStream]
  · by_cases h : goHasSuffix buf "data: [DONE]\n\n" = true
    · left; simp [awsInvokeOpenAIResponseBodyStream, h]
    · right; simp [awsInvokeOpenAIResponseBodyStream,
        Bool.not_eq_true _ ▸ h]
  · by_cases h : goHasSuffix buf "data: [DONE]\n\n" = true
    · simp [awsInvokeOpenAIResponseBodyStream, h]
    · simp only [awsInvokeOpenAIResponseBodyStream]
      rw [Bool.not_eq_true] at h
      simp [h, happ]
  · intro h; simp [awsInvokeOpenAIResponseBodyStream, h]
  · simp [awsOpenAIResponseBodyStream]
  · by_cases h : goHasSuffix buf "data: [DONE]\n" = true
    · simp [awsOpenAIResponseBodyStream, h]
    · simp only [awsOpenAIResponseBodyStream]
      rw [Bool.not_eq_true] at h
      simp [h, happ]
  · intro h; simp [awsOpenAIResponseBodyStream, h]

/-- The amended C3 theorem applied at the concrete empty final call: the
Invoke translator's output ends with its sentinel. -/
theorem C3_sentinel_per_call_amended_witness :
    goHasSuffix (awsInvokeOpenAIResponseBodyStream "" true)
      "data: [DONE]\n\n" = true :=
  (C3_sentinel_per_call_amended "").2.2.1

/-- C4 (code bug): `convertEventStreamToSSE` keeps no buffer between calls,
so a frame split across two reads is silently dropped and the emitted bytes
depend on where the read boundaries fall: splitting frames `A`,`B` mid-`B`
yields only `A`'s chunk, while the unsplit input yields both.  The AWS
Anthropic translator's `extractAnthropicSSEFromEventStream` retains the
partial frame (`bufferedBody[lastRead:]`) and emits `B` on the next call,
as the spec requires of every binary-framed decoder. -/
theorem C4_invoke_decoder_drops_partial_frames :
    convertEventStreamToSSE c4dec c4bytesField c4b64 c4call1 ++
        convertEventStreamToSSE c4dec c4bytesField c4b64 c4call2 =
      "data: a\n\n" ∧
    convertEventStreamToSSE c4dec c4bytesField c4b64 (c4call1 ++ c4call2) =
      "data: a\n\ndata: hello\n\n" ∧
    convertEventStreamToSSE c4dec c4bytesField c4b64 c4call1 ++
        convertEventStreamToSSE c4dec c4bytesField c4b64 c4call2 ≠
      convertEventStreamToSSE c4dec c4bytesField c4b64 (c4call1 ++ c4call2) ∧
    awsAnthropicStreamStep c4dec c4bytesField c4b64 c4typeOf [] c4call1 =
      ("event: event\ndata: a\n\n", [5, 104, 101]) ∧
    awsAnthropicStreamStep c4dec c4bytesField c4b64 c4typeOf
        [5, 104, 101] c4call2 =
      ("event: event\ndata: hello\n\n", []) := by
  refine ⟨by decide, by decide, by decide, by decide, by decide⟩
